import Mathlib

/-!
# ShiroRaksha forgery front-end: the client-side analysis pipeline

A shallow embedding of the pure pipeline of `forgery-frontend/src/App.js`:
`extractMask`, the heat-map transform of `createCompositeImage`,
`computeVariance`, `classify` and the result aggregation of `handleScan`.

Conventions of the embedding.

* A decoded raster (the `ImageData` that `getImageData` hands to the code) is a
  `PixelBuffer`: width, height and the flat RGBA byte sequence.  Decoding and
  canvas allocation belong to the browser and are not part of the embedding;
  `getImageData` is, as far as its `IndexSizeError` for a canvas without
  pixels goes.
* JavaScript numbers are `JSNum`: rationals extended with `NaN`, `Infinity`
  and `-Infinity`.  `computeVariance`, `tamperedPercentage` and `aggregate`
  give the arithmetic of the code in exact rationals; `computeVarianceD`,
  `tamperedPercentageD` and `handleScan` give it with every operation rounded
  to a double, which is what the code computes.
* A thrown JavaScript exception is `Except.error`.
-/

namespace ShiroRaksha

/-! ## JavaScript numbers -/

/-- A JavaScript number: a finite value, `NaN`, `Infinity` or `-Infinity`. -/
inductive JSNum where
  | fin (q : ℚ)
  | nan
  | posInf
  | negInf
  deriving DecidableEq

namespace JSNum

/-- The number denoted by a natural-number literal or an array length. -/
def ofNat (n : Nat) : JSNum := fin (n : ℚ)

/-- JavaScript `a + b` on numbers. -/
def add : JSNum → JSNum → JSNum
  | fin a, fin b => fin (a + b)
  | nan, _ => nan
  | _, nan => nan
  | posInf, negInf => nan
  | negInf, posInf => nan
  | posInf, _ => posInf
  | _, posInf => posInf
  | negInf, _ => negInf
  | _, negInf => negInf

/-- JavaScript unary minus. -/
def neg : JSNum → JSNum
  | fin a => fin (-a)
  | nan => nan
  | posInf => negInf
  | negInf => posInf

/-- JavaScript `a - b` on numbers. -/
def sub (a b : JSNum) : JSNum := add a (neg b)

/-- The infinity of the sign of `s * t`, where `s` is the sign of an infinite
factor (`true` for positive) and `t` a finite factor; `NaN` when `t = 0`. -/
def infTimes (s : Bool) (t : ℚ) : JSNum :=
  if t = 0 then nan else if (0 < t) = s then posInf else negInf

/-- JavaScript `a * b` on numbers. -/
def mul : JSNum → JSNum → JSNum
  | fin a, fin b => fin (a * b)
  | nan, _ => nan
  | _, nan => nan
  | posInf, fin b => infTimes true b
  | negInf, fin b => infTimes false b
  | fin a, posInf => infTimes true a
  | fin a, negInf => infTimes false a
  | posInf, posInf => posInf
  | negInf, negInf => posInf
  | posInf, negInf => negInf
  | negInf, posInf => negInf

/-- JavaScript `a / b` on numbers (zero is taken as positive zero). -/
def div : JSNum → JSNum → JSNum
  | fin a, fin b =>
    if b = 0 then (if a = 0 then nan else if 0 < a then posInf else negInf)
    else fin (a / b)
  | nan, _ => nan
  | _, nan => nan
  | fin _, posInf => fin 0
  | fin _, negInf => fin 0
  | posInf, fin b => if 0 ≤ b then posInf else negInf
  | negInf, fin b => if 0 ≤ b then negInf else posInf
  | posInf, posInf => nan
  | posInf, negInf => nan
  | negInf, posInf => nan
  | negInf, negInf => nan

/-- JavaScript `a < b`: false as soon as one side is `NaN`. -/
def lt : JSNum → JSNum → Bool
  | fin a, fin b => decide (a < b)
  | nan, _ => false
  | _, nan => false
  | negInf, negInf => false
  | negInf, _ => true
  | _, negInf => false
  | posInf, _ => false
  | _, posInf => true

/-- JavaScript `a > b`. -/
def gt (a b : JSNum) : Bool := lt b a

/-- `ToNumber` of an array read: an index outside the array reads `undefined`,
which arithmetic turns into `NaN`. -/
def ofRead : Option Nat → JSNum
  | some n => ofNat n
  | none => nan

/-- `Number.prototype.toFixed(d)`, keeping the number that the produced text
denotes: a finite value below `10^21` in magnitude is rounded to `d` decimals,
ties away from zero; `NaN`, `Infinity`, `-Infinity` and larger values are
printed as they are. -/
def toFixed (d : Nat) : JSNum → JSNum
  | fin q =>
    if (10 : ℚ) ^ 21 ≤ |q| then fin q
    else
      let n : ℤ := ⌊|q| * (10 : ℚ) ^ d + 1 / 2⌋
      if q < 0 then fin (-((n : ℚ) / (10 : ℚ) ^ d)) else fin ((n : ℚ) / (10 : ℚ) ^ d)
  | x => x

end JSNum

/-! ## Pixel buffers and masks -/

/-- A decoded raster: `data` holds the pixels row by row, four channel values
(red, green, blue, alpha) per pixel. -/
structure PixelBuffer where
  width : Nat
  height : Nat
  data : List Nat

/-- The buffers `getImageData` produces: four bytes for each of the
`width * height` pixels. -/
def PixelBuffer.WellFormed (buf : PixelBuffer) : Prop :=
  buf.data.length = 4 * (buf.width * buf.height)

instance (buf : PixelBuffer) : Decidable buf.WellFormed :=
  inferInstanceAs (Decidable (buf.data.length = 4 * (buf.width * buf.height)))

/-- A tamper mask: a list of rows of cells. -/
abbrev Mask := List (List Nat)

/-- The JavaScript read `mask[y][x]` where both indices are in range. -/
def Mask.cell? (mask : Mask) (y x : Nat) : Option Nat :=
  (mask[y]?).bind (fun row => row[x]?)

/-! ## `extractMask` -/

/-- `isRed` of `extractMask`: `r > 200 && g < 80 && b < 80`. -/
def isRed (r g b : Nat) : Bool :=
  decide (r > 200) && decide (g < 80) && decide (b < 80)

/-- `isBright` of `extractMask`:
`r > 50 && Math.abs(r - g) < 10 && Math.abs(r - b) < 10`. -/
def isBright (r g b : Nat) : Bool :=
  decide (r > 50) && decide (((r : ℤ) - g).natAbs < 10) && decide (((r : ℤ) - b).natAbs < 10)

/-- The test of the loop body at byte offset `i`: the three values of
`data.slice(i, i + 3)`, a missing one making every comparison false. -/
def selectedAt (data : List Nat) (i : Nat) : Bool :=
  match data[i]?, data[i + 1]?, data[i + 2]? with
  | some r, some g, some b => isRed r g b || isBright r g b
  | _, _, _ => false

/-- One pass of the `for` loop body of `extractMask` at byte offset `i`.  The
write `mask[py][px] = 1` throws when `mask[py]` is `undefined`, which is also
the case when the width is zero (`py` is then not an index). -/
def extractStep (width : Nat) (data : List Nat) (mask : Mask) (i : Nat) :
    Except String Mask :=
  if selectedAt data i then
    if width = 0 then .error "TypeError"
    else
      let px := (i / 4) % width
      let py := i / 4 / width
      match mask[py]? with
      | none => .error "TypeError"
      | some row => .ok (mask.set py (row.set px 1))
  else .ok mask

/-- The byte offsets `0, 4, 8, ...` below `len` that the loops
`for (let i = 0; i < len; i += 4)` visit. -/
def offsets (len : Nat) : List Nat :=
  (List.range ((len + 3) / 4)).map (fun p => 4 * p)

/-- The `for` loop of `extractMask` over the given byte offsets. -/
def extractLoop (width : Nat) (data : List Nat) (mask : Mask) (is : List Nat) :
    Except String Mask :=
  is.foldl (fun st i => st.bind (fun m => extractStep width data m i)) (.ok mask)

/-- The body of `extractMask` from the image data `imgData` on: a mask of
`height` rows of `width` zeros, in which the loop sets the cell of every
selected pixel. -/
def extractMask (imgData : PixelBuffer) : Except String Mask :=
  extractLoop imgData.width imgData.data
    (List.replicate imgData.height (List.replicate imgData.width 0))
    (offsets imgData.data.length)

/-- The call `ctx.getImageData(0, 0, canvas.width, canvas.height)` on the canvas
that holds the drawn image: it throws an `IndexSizeError` when the width or the
height is zero and returns the image data otherwise. -/
def getImageData (canvas : PixelBuffer) : Except String PixelBuffer :=
  if canvas.width = 0 ∨ canvas.height = 0 then .error "IndexSizeError" else .ok canvas

/-- The whole of `extractMask(overlayImg)`: the image data of the heat map is
read with `getImageData`, then the mask is built from it. -/
def extractMaskOfImage (overlayImg : PixelBuffer) : Except String Mask :=
  (getImageData overlayImg).bind extractMask

/-! ## The heat-map transform of `createCompositeImage` -/

/-- The conversion of a number stored into a `Uint8ClampedArray`: clamped to
`0 .. 255` and rounded to the nearest integer, a tie going to the even one. -/
def toUint8Clamp (q : ℚ) : Nat :=
  if q ≤ 0 then 0
  else if 255 ≤ q then 255
  else
    let f : Nat := ⌊q⌋₊
    if (f : ℚ) + 1 / 2 < q then f + 1
    else if q < (f : ℚ) + 1 / 2 then f
    else if f % 2 = 0 then f else f + 1

/-- The number `val * 0.6`.  The literal `0.6` is taken as `3 / 5`: for a byte
`val` the double product is within `10⁻¹³` of `val * 3 / 5`, whose fractional
part is one of `0, .2, .4, .6, .8`, so both round to the same stored byte. -/
def scaledAlpha (val : Nat) : ℚ := (val : ℚ) * (3 / 5)

/-- One pass of the `for` loop body of `createCompositeImage` at byte offset
`i`.  A write past the end of the typed array is ignored, as `List.set` does;
`undefined > 20` is false. -/
def overlayStep (data : List Nat) (i : Nat) : List Nat :=
  match data[i]? with
  | some val =>
    if val > 20 then
      (((data.set i 255).set (i + 1) 0).set (i + 2) 0).set (i + 3)
        (toUint8Clamp (scaledAlpha val))
    else data.set (i + 3) 0
  | none => data.set (i + 3) 0

/-- The `for` loop of `createCompositeImage`: the image data of the heat map
turned into the red overlay. -/
def overlayTransform (hData : PixelBuffer) : PixelBuffer :=
  { hData with data := (offsets hData.data.length).foldl overlayStep hData.data }

/-- Source-over compositing of one channel: a source value `s` drawn with
alpha `a` over the stored destination value `d`, all in `0 .. 255`.  This is
the canvas rule `s·α + d·(1 − α)`, rounded to the nearest byte. -/
def blendOver (s a d : Nat) : Nat := (s * a + d * (255 - a) + 127) / 255

/-- The canvas step `ctx.drawImage(hCanvas, 0, 0, width, height)` at the
destination pixel `(x, y)`: the overlay is stretched to the destination size
and its pixel for `(x, y)`, taken at the nearest source position, is drawn
source-over on the four stored channels.  A position without an overlay pixel
draws nothing. -/
def drawPixel (overlay : PixelBuffer) (width height : Nat) (dst : List Nat)
    (x y : Nat) : List Nat :=
  let sx := x * overlay.width / width
  let sy := y * overlay.height / height
  let j := 4 * (sy * overlay.width + sx)
  let k := 4 * (y * width + x)
  match overlay.data[j]?, overlay.data[j + 1]?, overlay.data[j + 2]?,
      overlay.data[j + 3]? with
  | some r, some g, some b, some a =>
    (((dst.set k (blendOver r a (dst.getD k 0))).set (k + 1)
      (blendOver g a (dst.getD (k + 1) 0))).set (k + 2)
      (blendOver b a (dst.getD (k + 2) 0))).set (k + 3)
      (blendOver 255 a (dst.getD (k + 3) 0))
  | _, _, _, _ => dst

/-- The whole of `ctx.drawImage(hCanvas, 0, 0, canvas.width, canvas.height)`:
every destination pixel in turn. -/
def drawImageScaled (overlay : PixelBuffer) (canvas : PixelBuffer) : PixelBuffer :=
  { canvas with
    data := (List.range canvas.height).foldl
      (fun d y => (List.range canvas.width).foldl
        (fun d x => drawPixel overlay canvas.width canvas.height d x y) d)
      canvas.data }

/-- `createCompositeImage`, from the decoded original and the image data of the
heat map: the canvas holding the original, with the red overlay drawn on it. -/
def createCompositeImage (original hData : PixelBuffer) : PixelBuffer :=
  drawImageScaled (overlayTransform hData) original

/-! ## `computeVariance` -/

/-- The pushed value `(img[idx] + img[idx + 1] + img[idx + 2]) / 3`. -/
def grayAt (img : List Nat) (idx : Nat) : JSNum :=
  JSNum.div
    (JSNum.add (JSNum.add (JSNum.ofRead img[idx]?) (JSNum.ofRead img[idx + 1]?))
      (JSNum.ofRead img[idx + 2]?))
    (JSNum.ofNat 3)

/-- The bound `mask[0].length` of the inner loop.  It is only evaluated once the
outer loop has entered its body, that is when `mask[0]` exists. -/
def firstRowLength (mask : Mask) : Nat :=
  match mask[0]? with
  | some row => row.length
  | none => 0

/-- The inner loop of `computeVariance` for row `y`, appending to `vals`. -/
def varianceRow (width : Nat) (img : List Nat) (mask : Mask) (y : Nat)
    (vals : List JSNum) : List JSNum :=
  (List.range (firstRowLength mask)).foldl
    (fun vals x =>
      if mask.cell? y x = some 1 then vals ++ [grayAt img ((y * width + x) * 4)]
      else vals)
    vals

/-- The two nested loops of `computeVariance`: the array `vals`. -/
def collectVals (width : Nat) (img : List Nat) (mask : Mask) : List JSNum :=
  (List.range mask.length).foldl (fun vals y => varianceRow width img mask y vals) []

/-- `computeVariance`, from the image data of the original and the mask, in
exact arithmetic. -/
def computeVariance (image : PixelBuffer) (mask : Mask) : JSNum :=
  match collectVals image.width image.data mask with
  | [] => JSNum.ofNat 0
  | v :: rest =>
    let n := JSNum.ofNat (v :: rest).length
    let mean := JSNum.div (rest.foldl JSNum.add v) n
    JSNum.div
      ((v :: rest).foldl
        (fun s w => JSNum.add s (JSNum.mul (JSNum.sub w mean) (JSNum.sub w mean)))
        (JSNum.ofNat 0))
      n

/-! ## `classify` -/

/-- `classify(mask, variance, vTh = 500, aTh = 100)`.  An omitted argument is
`none` and takes its default. -/
def classify (mask : Mask) (variance : JSNum) (vTh aTh : Option JSNum) : String :=
  let vTh := vTh.getD (JSNum.ofNat 500)
  let aTh := aTh.getD (JSNum.ofNat 100)
  let area := (mask.flatten.filter (fun v => v == 1)).length
  if JSNum.lt (JSNum.ofNat area) aTh then "NO TAMPERING"
  else if JSNum.gt variance vTh then "SPLICING"
  else "OBJECT REMOVAL"

/-! ## The result aggregation of `handleScan` -/

/-- `mask.length * mask[0].length`; reading `length` of the `undefined`
`mask[0]` of a mask without rows throws. -/
def totalPixels (mask : Mask) : Except String Nat :=
  match mask[0]? with
  | some row => .ok (mask.length * row.length)
  | none => .error "TypeError"

/-- `mask.flat().reduce((a, b) => a + b, 0)`. -/
def tamperedPixels (mask : Mask) : Nat :=
  mask.flatten.foldl (fun a b => a + b) 0

/-- `((tamperedPixels / totalPixels) * 100).toFixed(2)`, in exact arithmetic. -/
def tamperedPercentage (mask : Mask) : Except String JSNum :=
  (totalPixels mask).map (fun total =>
    JSNum.toFixed 2
      (JSNum.mul (JSNum.div (JSNum.ofNat (tamperedPixels mask)) (JSNum.ofNat total))
        (JSNum.ofNat 100)))

/-- `Math.max` of two numbers. -/
def max2 (a b : JSNum) : JSNum :=
  if a = JSNum.nan ∨ b = JSNum.nan then JSNum.nan
  else if JSNum.lt a b then b else a

/-- `Math.max(...xs)`: `-Infinity` without arguments. -/
def mathMax (xs : List JSNum) : JSNum := xs.foldl max2 JSNum.negInf

/-- `(Math.max(...data.ai_probs) * 100).toFixed(1)`. -/
def accuracy (ai_probs : List JSNum) : JSNum :=
  JSNum.toFixed 1 (JSNum.mul (mathMax ai_probs) (JSNum.ofNat 100))

/-- The record handed to `setClientAnalysis`. -/
structure ClientAnalysis where
  verdict : String
  variance : JSNum
  tamperedPercentage : JSNum
  accuracy : JSNum
  deriving DecidableEq

/-- The aggregation of `handleScan` after `classify`: the tampered percentage,
the accuracy and the record built from them. -/
def aggregate (mask : Mask) (variance : JSNum) (verdict : String)
    (ai_probs : List JSNum) : Except String ClientAnalysis :=
  (tamperedPercentage mask).map (fun pct =>
    { verdict := verdict
      variance := JSNum.toFixed 2 variance
      tamperedPercentage := pct
      accuracy := accuracy ai_probs })

/-! ## Definitions used to state the properties -/

/-- Channel `c` (0 red, 1 green, 2 blue, 3 alpha) of the pixel at column `x` of
row `y`. -/
def PixelBuffer.channel (buf : PixelBuffer) (x y c : Nat) : Nat :=
  buf.data.getD (4 * (y * buf.width + x) + c) 0

/-- The mask once the loop of `extractMask` has visited the first `k` pixels:
`height` rows of `width` cells, the cell of a visited selected pixel being 1
and every other cell 0. -/
def MaskAfter (width height : Nat) (data : List Nat) (k : Nat) (m : Mask) : Prop :=
  m.length = height ∧ (∀ row ∈ m, row.length = width) ∧
  ∀ y x, y < height → x < width →
    m.cell? y x =
      some (if y * width + x < k ∧ selectedAt data (4 * (y * width + x)) = true then 1 else 0)

/-- The grey value of the pixel at column `x` of row `y`, in the words of the
specification: the unweighted mean of its red, green and blue values. -/
def grayValue (image : PixelBuffer) (x y : Nat) : ℚ :=
  ((image.channel x y 0 : ℚ) + image.channel x y 1 + image.channel x y 2) / 3

/-- The positions `(y, x)` inside the image at which the mask holds 1, in the
words of the specification. -/
def selectedPositions (image : PixelBuffer) (mask : Mask) : List (Nat × Nat) :=
  (List.product (List.range image.height) (List.range image.width)).filter
    (fun yx => decide (mask.cell? yx.1 yx.2 = some 1))

/-- The grey values of the image at the positions the mask selects. -/
def selectedGrays (image : PixelBuffer) (mask : Mask) : List ℚ :=
  (selectedPositions image mask).map (fun yx => grayValue image yx.2 yx.1)

/-- The population variance in the words of the specification: the sum of the
squared deviations from the mean, divided by the number of values, and 0 for
no value at all. -/
def populationVariance (vs : List ℚ) : ℚ :=
  if vs = [] then 0
  else (vs.map (fun v => (v - vs.sum / vs.length) ^ 2)).sum / vs.length

/-- The byte the loop of `createCompositeImage` leaves in channel `c` of a pixel
whose first channel held `val` and whose channel `c` held `old`. -/
def overlayByte (val old c : Nat) : Nat :=
  if val > 20 then
    (if c = 0 then 255 else if c = 3 then toUint8Clamp (scaledAlpha val) else 0)
  else (if c = 3 then 0 else old)

/-- The data once the loop of `createCompositeImage` has visited the first `k`
pixels: the bytes of a visited pixel are transformed, the others untouched. -/
def OverlayAfter (orig : List Nat) (k : Nat) (d : List Nat) : Prop :=
  d.length = orig.length ∧
  ∀ j, j < orig.length →
    d[j]? = some (if j / 4 < k then
        overlayByte (orig.getD (4 * (j / 4)) 0) (orig.getD j 0) (j % 4)
      else orig.getD j 0)

/-- JavaScript `a <= b` on numbers: false as soon as one side is `NaN`. -/
def JSNum.le : JSNum → JSNum → Bool
  | JSNum.fin a, JSNum.fin b => decide (a ≤ b)
  | JSNum.nan, _ => false
  | _, JSNum.nan => false
  | JSNum.negInf, _ => true
  | _, JSNum.posInf => true
  | _, _ => false

/-- A mask as the data model has it: a grid of rows of `w` cells, each cell 0
or 1. -/
def Mask.IsGrid (mask : Mask) (w : Nat) : Prop :=
  (∀ row ∈ mask, row.length = w) ∧ ∀ row ∈ mask, ∀ c ∈ row, c = 0 ∨ c = 1

/-- A number rounded to 2 decimal places: the nearest multiple of `1 / 100`,
the upper one at a tie. -/
def roundTo2 (q : ℚ) : ℚ := (⌊q * 100 + 1 / 2⌋ : ℤ) / 100

/-- The share of the cells of a mask that are 1, in percent, in the words of
the specification. -/
def onesPercent (mask : Mask) : ℚ :=
  (mask.flatten.count 1 : ℚ) / (mask.flatten.length : ℚ) * 100

/-! ## Double arithmetic

The functions above compute with exact rationals.  JavaScript computes with
doubles, so the arithmetic of `computeVariance` and of the tampered percentage
is given here with every result rounded to the nearest double (53-bit
significand, ties to even; the values at hand are far from overflow and from
the subnormal range), and `handleScan` is composed of these. -/

/-- The number of binary digits of `n`, by halving at most `fuel` times. -/
def bitLength : Nat → Nat → Nat
  | 0, _ => 0
  | fuel + 1, n => if n = 0 then 0 else bitLength fuel (n / 2) + 1

/-- The integer nearest to `n / d`, the even one at a tie. -/
def roundHalfEven (n d : Nat) : Nat :=
  let q := n / d
  let r := n % d
  if 2 * r < d then q else if d < 2 * r then q + 1 else if q % 2 = 0 then q else q + 1

/-- The binary exponent of `n / d` for positive `n` and `d`: the `e` with
`2 ^ e ≤ n / d < 2 ^ (e + 1)`. -/
def binExp (n d : Nat) : Int :=
  let l : Int := (bitLength n n : Int) - (bitLength d d : Int)
  if 0 ≤ l then (if d * 2 ^ l.toNat ≤ n then l else l - 1)
  else (if d ≤ n * 2 ^ (-l).toNat then l else l - 1)

/-- The double nearest to `q`: a 53-bit significand times a power of two, the
even significand at a tie. -/
def roundDouble (q : ℚ) : ℚ :=
  if q = 0 then 0
  else
    let n := q.num.natAbs
    let d := q.den
    let s : Int := binExp n d - 52
    let v : ℚ :=
      if 0 ≤ s then ((roundHalfEven n (d * 2 ^ s.toNat) * 2 ^ s.toNat : Nat) : ℚ)
      else (roundHalfEven (n * 2 ^ (-s).toNat) d : ℚ) / ((2 ^ (-s).toNat : Nat) : ℚ)
    if q < 0 then -v else v

/-- The result of an operation, rounded to a double. -/
def JSNum.round : JSNum → JSNum
  | JSNum.fin q => JSNum.fin (roundDouble q)
  | x => x

/-- JavaScript `a + b` in double arithmetic. -/
def JSNum.addD (a b : JSNum) : JSNum := JSNum.round (JSNum.add a b)

/-- JavaScript `a - b` in double arithmetic. -/
def JSNum.subD (a b : JSNum) : JSNum := JSNum.round (JSNum.sub a b)

/-- JavaScript `a * b` in double arithmetic; `x ** 2` is taken as `x * x`. -/
def JSNum.mulD (a b : JSNum) : JSNum := JSNum.round (JSNum.mul a b)

/-- JavaScript `a / b` in double arithmetic. -/
def JSNum.divD (a b : JSNum) : JSNum := JSNum.round (JSNum.div a b)

/-- The pushed value `(img[idx] + img[idx + 1] + img[idx + 2]) / 3` in double
arithmetic. -/
def grayAtD (img : List Nat) (idx : Nat) : JSNum :=
  JSNum.divD
    (JSNum.addD (JSNum.addD (JSNum.ofRead img[idx]?) (JSNum.ofRead img[idx + 1]?))
      (JSNum.ofRead img[idx + 2]?))
    (JSNum.ofNat 3)

/-- The inner loop of `computeVariance` for row `y`, in double arithmetic. -/
def varianceRowD (width : Nat) (img : List Nat) (mask : Mask) (y : Nat)
    (vals : List JSNum) : List JSNum :=
  (List.range (firstRowLength mask)).foldl
    (fun vals x =>
      if mask.cell? y x = some 1 then vals ++ [grayAtD img ((y * width + x) * 4)]
      else vals)
    vals

/-- The two nested loops of `computeVariance`, in double arithmetic. -/
def collectValsD (width : Nat) (img : List Nat) (mask : Mask) : List JSNum :=
  (List.range mask.length).foldl (fun vals y => varianceRowD width img mask y vals) []

/-- `computeVariance` in double arithmetic. -/
def computeVarianceD (image : PixelBuffer) (mask : Mask) : JSNum :=
  match collectValsD image.width image.data mask with
  | [] => JSNum.ofNat 0
  | v :: rest =>
    let n := JSNum.ofNat (v :: rest).length
    let mean := JSNum.divD (rest.foldl JSNum.addD v) n
    JSNum.divD
      ((v :: rest).foldl
        (fun s w => JSNum.addD s (JSNum.mulD (JSNum.subD w mean) (JSNum.subD w mean)))
        (JSNum.ofNat 0))
      n

/-- `((tamperedPixels / totalPixels) * 100).toFixed(2)` in double arithmetic:
the quotient and the product are rounded to doubles, and `toFixed` prints the
double it is given. -/
def tamperedPercentageD (mask : Mask) : Except String JSNum :=
  (totalPixels mask).map (fun total =>
    JSNum.toFixed 2
      (JSNum.mulD (JSNum.divD (JSNum.ofNat (tamperedPixels mask)) (JSNum.ofNat total))
        (JSNum.ofNat 100)))

/-- The analysis of `handleScan`, from the decoded heat map, the decoded
original and the probabilities of the response.  `createCompositeImage` reads
the image data of the heat map first, `extractMask` reads it again,
`computeVariance` reads the image data of the original; then come `classify`,
the tampered percentage, the accuracy and the record. -/
def handleScan (overlay original : PixelBuffer) (ai_probs : List JSNum) :
    Except String ClientAnalysis :=
  (getImageData overlay).bind (fun _ =>
    (extractMaskOfImage overlay).bind (fun mask =>
      (getImageData original).bind (fun image =>
        let variance := computeVarianceD image mask
        let verdict := classify mask variance none none
        (tamperedPercentageD mask).map (fun pct =>
          { verdict := verdict
            variance := JSNum.toFixed 2 variance
            tamperedPercentage := pct
            accuracy := JSNum.toFixed 1
              (JSNum.mulD (mathMax ai_probs) (JSNum.ofNat 100)) }))))

/-- The grey value of the pixel at column `x` of row `y` as the code computes
it: the two sums and the quotient by 3, each rounded to a double. -/
def grayValueD (image : PixelBuffer) (x y : Nat) : ℚ :=
  roundDouble
    (roundDouble (roundDouble ((image.channel x y 0 : ℚ) + image.channel x y 1) +
      image.channel x y 2) / 3)

/-- The grey values, in double arithmetic, of the image at the positions the
mask selects, row after row. -/
def selectedGraysD (image : PixelBuffer) (mask : Mask) : List ℚ :=
  (selectedPositions image mask).map (fun yx => grayValueD image yx.2 yx.1)

/-- The sum of the values, added from left to right in double arithmetic. -/
def sumD : List ℚ → ℚ
  | [] => 0
  | v :: rest => rest.foldl (fun a b => roundDouble (a + b)) v

/-- The population variance evaluated in double arithmetic: the mean is the
rounded sum divided by the number of values, and the squared deviations from
it are added from left to right and divided by the number of values, every
difference, square, sum and quotient being rounded to a double. -/
def populationVarianceD (vs : List ℚ) : ℚ :=
  if vs = [] then 0
  else
    roundDouble
      (vs.foldl
        (fun s v => roundDouble (s +
          roundDouble
            (roundDouble (v - roundDouble (sumD vs / vs.length)) *
              roundDouble (v - roundDouble (sumD vs / vs.length)))))
        0 / vs.length)

/-- A buffer whose pixels all have the red, green and blue values `r`, `g`,
`b`. -/
def PixelBuffer.Uniform (buf : PixelBuffer) (r g b : Nat) : Prop :=
  ∀ x, x < buf.width → ∀ y, y < buf.height →
    buf.channel x y 0 = r ∧ buf.channel x y 1 = g ∧ buf.channel x y 2 = b

instance (buf : PixelBuffer) (r g b : Nat) : Decidable (buf.Uniform r g b) :=
  inferInstanceAs (Decidable (∀ x, x < buf.width → ∀ y, y < buf.height →
    buf.channel x y 0 = r ∧ buf.channel x y 1 = g ∧ buf.channel x y 2 = b))

/-- The buffer of `w * h` pixels that all are `(r, g, b, 255)`. -/
def uniformBuffer (w h r g b : Nat) : PixelBuffer :=
  ⟨w, h, (List.replicate (w * h) [r, g, b, 255]).flatten⟩

/-! ## Facts about `extractMask` -/

theorem cell?_set (m : Mask) (py px : Nat) (row : List Nat) (h : m[py]? = some row)
    (y x : Nat) :
    Mask.cell? (m.set py (row.set px 1)) y x =
      if y = py ∧ x = px ∧ px < row.length then some 1 else m.cell? y x := by
  have hpy : py < m.length := by
    rcases List.getElem?_eq_some_iff.1 h with ⟨hlt, _⟩
    exact hlt
  unfold Mask.cell?
  rw [List.getElem?_set]
  by_cases hy : py = y
  · subst hy
    simp only [hpy, if_true, Option.some_bind, List.getElem?_set, h, true_and]
    by_cases hx : px = x
    · subst hx
      by_cases hlt : px < row.length
      · simp [hlt]
      · simp [hlt]
        omega
    · have hx2 : ¬ x = px := fun e => hx e.symm
      simp [hx, hx2]
  · have hy2 : ¬ y = py := fun e => hy e.symm
    simp [hy, hy2]

theorem div_mod_unique (w y x : Nat) (hx : x < w) :
    (y * w + x) / w = y ∧ (y * w + x) % w = x := by
  have hw : 0 < w := by omega
  constructor
  · rw [Nat.mul_comm, Nat.mul_add_div hw, Nat.div_eq_of_lt hx, Nat.add_zero]
  · rw [Nat.mul_comm, Nat.mul_add_mod, Nat.mod_eq_of_lt hx]

theorem maskAfter_init (width height : Nat) (data : List Nat) :
    MaskAfter width height data 0
      (List.replicate height (List.replicate width 0)) := by
  refine ⟨by simp, ?_, ?_⟩
  · intro row hrow
    rw [List.eq_of_mem_replicate hrow]
    simp
  · intro y x hy hx
    simp [Mask.cell?, List.getElem?_replicate, hy, hx]

theorem maskAfter_step (width height : Nat) (data : List Nat) (k : Nat) (m : Mask)
    (hk : k < width * height) (hm : MaskAfter width height data k m) :
    ∃ m', extractStep width data m (4 * k) = .ok m' ∧
      MaskAfter width height data (k + 1) m' := by
  obtain ⟨hlen, hrows, hcells⟩ := hm
  have hw : 0 < width := by
    rcases Nat.eq_zero_or_pos width with h0 | h0
    · rw [h0] at hk; simp at hk
    · exact h0
  have hpy : k / width < height := by
    rw [Nat.div_lt_iff_lt_mul hw, Nat.mul_comm]; exact hk
  have hpx : k % width < width := Nat.mod_lt _ hw
  have hdecomp : k / width * width + k % width = k := by
    rw [Nat.mul_comm]; exact Nat.div_add_mod k width
  by_cases hsel : selectedAt data (4 * k) = true
  · have hrow : ∃ row, m[k / width]? = some row := by
      have : k / width < m.length := by omega
      exact ⟨m[k / width], List.getElem?_eq_getElem this⟩
    obtain ⟨row, hrow⟩ := hrow
    have hrowlen : row.length = width :=
      hrows row (List.mem_iff_getElem?.2 ⟨_, hrow⟩)
    refine ⟨m.set (k / width) (row.set (k % width) 1), ?_, ?_, ?_, ?_⟩
    · have h4 : 4 * k / 4 = k := by omega
      simp [extractStep, hsel, Nat.ne_of_gt hw, h4, hrow]
    · simp [hlen]
    · intro r hr
      rcases List.mem_or_eq_of_mem_set hr with h1 | h1
      · exact hrows r h1
      · rw [h1]; simp [hrowlen]
    · intro y x hy hx
      rw [cell?_set m _ _ row hrow, hcells y x hy hx, hrowlen]
      by_cases hyx : y = k / width ∧ x = k % width
      · obtain ⟨e1, e2⟩ := hyx
        have hkk : y * width + x = k := by rw [e1, e2]; exact hdecomp
        simp [e1, e2, hpx, hdecomp, hsel]
      · have hne : y * width + x ≠ k := by
          intro e
          apply hyx
          have := div_mod_unique width y x hx
          rw [e] at this
          exact ⟨this.1.symm, this.2.symm⟩
        have h1 : ¬ (y = k / width ∧ x = k % width ∧ k % width < width) :=
          fun h => hyx ⟨h.1, h.2.1⟩
        rw [if_neg h1]
        have h2 : (y * width + x < k + 1) ↔ (y * width + x < k) := by omega
        simp only [h2]
  · refine ⟨m, ?_, hlen, hrows, ?_⟩
    · simp [extractStep, hsel]
    · intro y x hy hx
      rw [hcells y x hy hx]
      by_cases hyx : y * width + x = k
      · rw [hyx]; simp [hsel]
      · have h2 : (y * width + x < k + 1) ↔ (y * width + x < k) := by omega
        simp only [h2]

theorem maskAfter_loop (width height : Nat) (data : List Nat) (k : Nat)
    (hk : k ≤ width * height) :
    ∃ m, extractLoop width data (List.replicate height (List.replicate width 0))
        ((List.range k).map (fun p => 4 * p)) = .ok m ∧
      MaskAfter width height data k m := by
  induction k with
  | zero => exact ⟨_, rfl, maskAfter_init width height data⟩
  | succ k ih =>
    obtain ⟨m, hm, hinv⟩ := ih (by omega)
    obtain ⟨m', hstep, hinv'⟩ := maskAfter_step width height data k m (by omega) hinv
    refine ⟨m', ?_, hinv'⟩
    unfold extractLoop at hm ⊢
    rw [List.range_succ, List.map_append, List.foldl_append, hm]
    simpa [Except.bind] using hstep

theorem extractMask_spec (buf : PixelBuffer) (hwf : buf.WellFormed) :
    ∃ m, extractMask buf = .ok m ∧
      MaskAfter buf.width buf.height buf.data (buf.width * buf.height) m := by
  have hn : (buf.data.length + 3) / 4 = buf.width * buf.height := by
    unfold PixelBuffer.WellFormed at hwf
    omega
  unfold extractMask offsets
  rw [hn]
  exact maskAfter_loop buf.width buf.height buf.data _ (Nat.le_refl _)

theorem pixel_index_lt (w h x y : Nat) (hx : x < w) (hy : y < h) : y * w + x < w * h := by
  have h1 : (y + 1) * w ≤ h * w := Nat.mul_le_mul_right w hy
  have h2 : (y + 1) * w = y * w + w := by ring
  have h3 : h * w = w * h := Nat.mul_comm h w
  omega

theorem selectedAt_channel (buf : PixelBuffer) (hwf : buf.WellFormed) (x y : Nat)
    (hx : x < buf.width) (hy : y < buf.height) :
    selectedAt buf.data (4 * (y * buf.width + x)) =
      (isRed (buf.channel x y 0) (buf.channel x y 1) (buf.channel x y 2) ||
        isBright (buf.channel x y 0) (buf.channel x y 1) (buf.channel x y 2)) := by
  have hp := pixel_index_lt buf.width buf.height x y hx hy
  unfold PixelBuffer.WellFormed at hwf
  have h0 : 4 * (y * buf.width + x) < buf.data.length := by omega
  have h1 : 4 * (y * buf.width + x) + 1 < buf.data.length := by omega
  have h2 : 4 * (y * buf.width + x) + 2 < buf.data.length := by omega
  simp [selectedAt, PixelBuffer.channel, List.getD, List.getElem?_eq_getElem, h0, h1, h2]

theorem mask_ext (w h : Nat) (m m' : Mask) (hl : m.length = h) (hl' : m'.length = h)
    (hr : ∀ row ∈ m, row.length = w) (hr' : ∀ row ∈ m', row.length = w)
    (hc : ∀ y x, y < h → x < w → m.cell? y x = m'.cell? y x) : m = m' := by
  apply List.ext_getElem (by omega)
  intro y h1 h2
  have hw1 : m[y].length = w := hr _ (List.getElem_mem h1)
  have hw2 : m'[y].length = w := hr' _ (List.getElem_mem h2)
  apply List.ext_getElem (by omega)
  intro x h3 h4
  have := hc y x (by omega) (by omega)
  simp only [Mask.cell?, List.getElem?_eq_getElem h1, List.getElem?_eq_getElem h2,
    Option.some_bind, List.getElem?_eq_getElem h3, List.getElem?_eq_getElem h4] at this
  exact Option.some.inj this

theorem selected_iff (r g b : Nat) :
    (isRed r g b || isBright r g b) = true ↔
      ((r > 200 ∧ g < 80 ∧ b < 80) ∨
        (r > 50 ∧ |(r : ℤ) - g| < 10 ∧ |(r : ℤ) - b| < 10)) := by
  simp only [isRed, isBright, Bool.or_eq_true, Bool.and_eq_true, decide_eq_true_eq, and_assoc]
  have e1 : (((r : ℤ) - g).natAbs < 10) ↔ |(r : ℤ) - g| < 10 := by
    rw [Int.abs_eq_natAbs]; omega
  have e2 : (((r : ℤ) - b).natAbs < 10) ↔ |(r : ℤ) - b| < 10 := by
    rw [Int.abs_eq_natAbs]; omega
  rw [e1, e2]

/-- C1: on the image data of a heat map of width `W` and height `H`,
`extractMask` returns a mask whose cell `mask[y][x]`, for `x < W` and `y < H`,
is 1 when the pixel's red, green and blue values satisfy
`(r > 200 and g < 80 and b < 80) or (r > 50 and |r - g| < 10 and |r - b| < 10)`
and 0 otherwise; a second buffer that differs at most in its alpha channel
gives the same mask. -/
theorem extractMask_cell (buf : PixelBuffer) (hwf : buf.WellFormed) :
    ∃ mask, extractMask buf = .ok mask ∧
      (∀ x y, x < buf.width → y < buf.height →
        mask.cell? y x =
          some (if (buf.channel x y 0 > 200 ∧ buf.channel x y 1 < 80 ∧ buf.channel x y 2 < 80) ∨
              (buf.channel x y 0 > 50 ∧
                |(buf.channel x y 0 : ℤ) - buf.channel x y 1| < 10 ∧
                |(buf.channel x y 0 : ℤ) - buf.channel x y 2| < 10)
            then 1 else 0)) ∧
      ∀ other : PixelBuffer, other.WellFormed →
        other.width = buf.width → other.height = buf.height →
        (∀ x y c, c < 3 → other.channel x y c = buf.channel x y c) →
        extractMask other = .ok mask := by
  obtain ⟨m, hm, hlen, hrows, hcells⟩ := extractMask_spec buf hwf
  have key : ∀ (b : PixelBuffer) (hb : b.WellFormed) (m : Mask),
      MaskAfter b.width b.height b.data (b.width * b.height) m →
      ∀ x y, x < b.width → y < b.height →
        m.cell? y x =
          some (if (b.channel x y 0 > 200 ∧ b.channel x y 1 < 80 ∧ b.channel x y 2 < 80) ∨
              (b.channel x y 0 > 50 ∧
                |(b.channel x y 0 : ℤ) - b.channel x y 1| < 10 ∧
                |(b.channel x y 0 : ℤ) - b.channel x y 2| < 10)
            then 1 else 0) := by
    intro b hb m hinv x y hx hy
    rw [hinv.2.2 y x hy hx, selectedAt_channel b hb x y hx hy]
    simp only [selected_iff, pixel_index_lt b.width b.height x y hx hy, true_and]
  refine ⟨m, hm, key buf hwf m ⟨hlen, hrows, hcells⟩, ?_⟩
  intro other ho hw hh hch
  obtain ⟨m', hm', hinv'⟩ := extractMask_spec other ho
  rw [hm']
  congr 1
  rw [hw, hh] at hinv'
  apply mask_ext buf.width buf.height m' m hinv'.1 hlen hinv'.2.1 hrows
  intro y x hy hx
  have k1 := key buf hwf m ⟨hlen, hrows, hcells⟩ x y hx hy
  have k2 := key other ho m' (by rw [hw, hh]; exact hinv') x y (by omega) (by omega)
  rw [k1, k2, hch x y 0 (by omega), hch x y 1 (by omega), hch x y 2 (by omega)]

/-- Witness for C1: a two-pixel heat map. -/
theorem extractMask_cell_witness :
    ∃ mask, extractMask ⟨2, 1, [100, 100, 100, 255, 0, 0, 0, 255]⟩ = .ok mask ∧
      (∀ x y, x < 2 → y < 1 →
        mask.cell? y x =
          some (if ((⟨2, 1, [100, 100, 100, 255, 0, 0, 0, 255]⟩ : PixelBuffer).channel x y 0 > 200 ∧
                (⟨2, 1, [100, 100, 100, 255, 0, 0, 0, 255]⟩ : PixelBuffer).channel x y 1 < 80 ∧
                (⟨2, 1, [100, 100, 100, 255, 0, 0, 0, 255]⟩ : PixelBuffer).channel x y 2 < 80) ∨
              ((⟨2, 1, [100, 100, 100, 255, 0, 0, 0, 255]⟩ : PixelBuffer).channel x y 0 > 50 ∧
                |((⟨2, 1, [100, 100, 100, 255, 0, 0, 0, 255]⟩ : PixelBuffer).channel x y 0 : ℤ) -
                  (⟨2, 1, [100, 100, 100, 255, 0, 0, 0, 255]⟩ : PixelBuffer).channel x y 1| < 10 ∧
                |((⟨2, 1, [100, 100, 100, 255, 0, 0, 0, 255]⟩ : PixelBuffer).channel x y 0 : ℤ) -
                  (⟨2, 1, [100, 100, 100, 255, 0, 0, 0, 255]⟩ : PixelBuffer).channel x y 2| < 10)
            then 1 else 0)) ∧
      ∀ other : PixelBuffer, other.WellFormed →
        other.width = 2 → other.height = 1 →
        (∀ x y c, c < 3 → other.channel x y c =
          (⟨2, 1, [100, 100, 100, 255, 0, 0, 0, 255]⟩ : PixelBuffer).channel x y c) →
        extractMask other = .ok mask :=
  extractMask_cell ⟨2, 1, [100, 100, 100, 255, 0, 0, 0, 255]⟩ (by decide)

/-! ## Facts about `classify` -/

/-- The number of cells of a mask that are 1: the `area` of `classify`. -/
theorem area_eq_count (mask : Mask) :
    (mask.flatten.filter (fun v => v == 1)).length = mask.flatten.count 1 := by
  rw [List.count, List.countP_eq_length_filter]

theorem count_one_row (n : Nat) : List.count 1 [List.replicate n 1].flatten = n := by
  simp

/-- C2: with both thresholds omitted, `classify` returns `NO TAMPERING` when
fewer than 100 cells are 1, otherwise `SPLICING` when the variance is strictly
above 500, otherwise `OBJECT REMOVAL`; so 100 selected cells with variance 501
give `SPLICING`, 99 selected cells give `NO TAMPERING` whatever the variance,
and 100 selected cells with variance exactly 500 give `OBJECT REMOVAL`. -/
theorem classify_default (mask : Mask) (variance : JSNum) :
    classify mask variance none none =
        (if mask.flatten.count 1 < 100 then "NO TAMPERING"
          else if JSNum.gt variance (JSNum.fin 500) = true then "SPLICING"
          else "OBJECT REMOVAL") ∧
      (mask.flatten.count 1 = 100 →
        classify mask (JSNum.fin 501) none none = "SPLICING" ∧
        classify mask (JSNum.fin 500) none none = "OBJECT REMOVAL") ∧
      (mask.flatten.count 1 = 99 → classify mask variance none none = "NO TAMPERING") := by
  have main : ∀ v : JSNum, classify mask v none none =
      (if mask.flatten.count 1 < 100 then "NO TAMPERING"
        else if JSNum.gt v (JSNum.fin 500) = true then "SPLICING"
        else "OBJECT REMOVAL") := by
    intro v
    simp only [classify, Option.getD_none, area_eq_count, JSNum.ofNat, JSNum.lt,
      decide_eq_true_eq, Nat.cast_ofNat]
    have e : ((mask.flatten.count 1 : ℕ) : ℚ) < 100 ↔ mask.flatten.count 1 < 100 := by
      exact_mod_cast Iff.rfl
    simp only [e]
  refine ⟨main variance, ?_, ?_⟩
  · intro h
    constructor
    · rw [main, h]; norm_num [JSNum.gt, JSNum.lt]
    · rw [main, h]; norm_num [JSNum.gt, JSNum.lt]
  · intro h
    rw [main, h]; simp

/-- Witness for C2: one row of 100 selected cells, and one of 99. -/
theorem classify_default_witness :
    classify [List.replicate 100 1] (JSNum.fin 501) none none = "SPLICING" ∧
      classify [List.replicate 100 1] (JSNum.fin 500) none none = "OBJECT REMOVAL" ∧
      classify [List.replicate 99 1] (JSNum.fin 501) none none = "NO TAMPERING" :=
  ⟨((classify_default [List.replicate 100 1] (JSNum.fin 501)).2.1 (count_one_row 100)).1,
    ((classify_default [List.replicate 100 1] (JSNum.fin 501)).2.1 (count_one_row 100)).2,
    (classify_default [List.replicate 99 1] (JSNum.fin 501)).2.2 (count_one_row 99)⟩

/-- C7, as the code has it: the third argument of `classify` is the variance
threshold and the fourth the area threshold.  `classify(mask, variance, v, a)`
returns `NO TAMPERING` when fewer than `a` cells are 1, otherwise `SPLICING`
when `variance > v`, otherwise `OBJECT REMOVAL`; omitted thresholds are
`v = 500` and `a = 100`. -/
theorem classify_thresholds (mask : Mask) (variance v a : JSNum) :
    classify mask variance (some v) (some a) =
        (if JSNum.lt (JSNum.ofNat (mask.flatten.count 1)) a = true then "NO TAMPERING"
          else if JSNum.gt variance v = true then "SPLICING"
          else "OBJECT REMOVAL") ∧
      classify mask variance none none =
        classify mask variance (some (JSNum.ofNat 500)) (some (JSNum.ofNat 100)) := by
  constructor
  · simp only [classify, Option.getD_some, area_eq_count]
  · simp only [classify, Option.getD_some, Option.getD_none]

/-- C7 fails as stated: with the area threshold 100 passed third and the
variance threshold 500 passed fourth, a mask of 150 selected cells and variance
300 is classified `NO TAMPERING`, where the documented order asks for
`OBJECT REMOVAL` (150 is not below 100 and 300 is not above 500). -/
theorem classify_documented_order_counterexample :
    classify [List.replicate 150 1] (JSNum.fin 300) (some (JSNum.fin 100))
        (some (JSNum.fin 500)) = "NO TAMPERING" ∧
      (if JSNum.lt (JSNum.ofNat (List.count 1 [List.replicate 150 1].flatten))
            (JSNum.fin 100) = true then "NO TAMPERING"
        else if JSNum.gt (JSNum.fin 300) (JSNum.fin 500) = true then "SPLICING"
        else "OBJECT REMOVAL") = "OBJECT REMOVAL" := by
  constructor
  · simp only [classify, Option.getD_some, area_eq_count, count_one_row]
    norm_num [JSNum.lt, JSNum.gt, JSNum.ofNat]
  · rw [count_one_row]
    norm_num [JSNum.lt, JSNum.gt, JSNum.ofNat]

/-! ## Facts about `computeVariance` -/

theorem foldl_push {α β : Type} (p : α → Bool) (f : α → β) (l : List α) (init : List β) :
    l.foldl (fun vals x => if p x = true then vals ++ [f x] else vals) init =
      init ++ (l.filter p).map f := by
  induction l generalizing init with
  | nil => simp
  | cons a l ih =>
    rw [List.foldl_cons, ih]
    by_cases h : p a = true
    · simp [h]
    · simp [h]

theorem foldl_append_rows {α β : Type} (g : α → List β) (l : List α) (init : List β) :
    l.foldl (fun vals y => vals ++ g y) init = init ++ l.flatMap g := by
  induction l generalizing init with
  | nil => simp
  | cons a l ih =>
    rw [List.foldl_cons, ih]
    simp

theorem varianceRow_eq (width : Nat) (img : List Nat) (mask : Mask) (y : Nat)
    (vals : List JSNum) :
    varianceRow width img mask y vals =
      vals ++ ((List.range (firstRowLength mask)).filter
        (fun x => decide (mask.cell? y x = some 1))).map
        (fun x => grayAt img ((y * width + x) * 4)) := by
  unfold varianceRow
  rw [← foldl_push]
  apply List.foldl_ext
  intro vals x _
  by_cases h : mask.cell? y x = some 1 <;> simp [h]

theorem collectVals_eq (width : Nat) (img : List Nat) (mask : Mask) :
    collectVals width img mask =
      (List.range mask.length).flatMap (fun y =>
        ((List.range (firstRowLength mask)).filter
          (fun x => decide (mask.cell? y x = some 1))).map
          (fun x => grayAt img ((y * width + x) * 4))) := by
  unfold collectVals
  have h := foldl_append_rows (fun y =>
        ((List.range (firstRowLength mask)).filter
          (fun x => decide (mask.cell? y x = some 1))).map
          (fun x => grayAt img ((y * width + x) * 4))) (List.range mask.length) []
  rw [List.nil_append] at h
  rw [← h]
  apply List.foldl_ext
  intro vals y _
  exact varianceRow_eq width img mask y vals

theorem cell?_mem (mask : Mask) (y x c : Nat) (h : mask.cell? y x = some c) :
    ∃ row ∈ mask, c ∈ row := by
  unfold Mask.cell? at h
  cases hrow : mask[y]? with
  | none => rw [hrow] at h; simp at h
  | some row =>
    rw [hrow] at h
    simp only [Option.some_bind] at h
    exact ⟨row, List.mem_iff_getElem?.2 ⟨y, hrow⟩, List.mem_iff_getElem?.2 ⟨x, h⟩⟩

theorem computeVariance_no_selection_aux (image : PixelBuffer) (mask : Mask)
    (hnone : ∀ row ∈ mask, ∀ c ∈ row, c ≠ 1) :
    computeVariance image mask = JSNum.fin 0 := by
  have hvals : collectVals image.width image.data mask = [] := by
    rw [collectVals_eq]
    rw [List.flatMap_eq_nil_iff]
    intro y _
    rw [List.map_eq_nil_iff, List.filter_eq_nil_iff]
    intro x _ hx
    obtain ⟨row, hrow, hc⟩ := cell?_mem mask y x 1 (of_decide_eq_true hx)
    exact hnone row hrow 1 hc rfl
  unfold computeVariance
  rw [hvals]
  simp [JSNum.ofNat]

/-- C4: for every image and every mask without a cell equal to 1, a mask of
zero rows or of zero columns included, `computeVariance` returns exactly 0:
it does not throw and the result is not `NaN`. -/
theorem computeVariance_no_selection (image : PixelBuffer) (mask : Mask)
    (hnone : ∀ row ∈ mask, ∀ c ∈ row, c ≠ 1) :
    computeVariance image mask = JSNum.fin 0 :=
  computeVariance_no_selection_aux image mask hnone

/-- Witness for C4: an all-zero mask, a mask without rows and a mask without
columns. -/
theorem computeVariance_no_selection_witness :
    computeVariance ⟨2, 1, [3, 3, 3, 255, 9, 9, 9, 255]⟩ [[0, 0]] = JSNum.fin 0 ∧
      computeVariance ⟨2, 1, [3, 3, 3, 255, 9, 9, 9, 255]⟩ [] = JSNum.fin 0 ∧
      computeVariance ⟨2, 1, [3, 3, 3, 255, 9, 9, 9, 255]⟩ [[], []] = JSNum.fin 0 :=
  ⟨computeVariance_no_selection _ [[0, 0]] (by decide),
    computeVariance_no_selection _ [] (by decide),
    computeVariance_no_selection _ [[], []] (by decide)⟩

theorem flatMap_congr_mem {α β : Type} (l : List α) (f g : α → List β)
    (h : ∀ a ∈ l, f a = g a) : l.flatMap f = l.flatMap g := by
  induction l with
  | nil => rfl
  | cons a l ih =>
    rw [List.flatMap_cons, List.flatMap_cons, h a (List.mem_cons_self a l),
      ih (fun b hb => h b (List.mem_cons_of_mem a hb))]

theorem firstRowLength_eq (mask : Mask) (w : Nat) (hrows : ∀ row ∈ mask, row.length = w)
    (hne : 0 < mask.length) : firstRowLength mask = w := by
  unfold firstRowLength
  rw [List.getElem?_eq_getElem hne]
  exact hrows _ (List.getElem_mem hne)

theorem foldl_add_fin (qs : List ℚ) (a : ℚ) :
    (qs.map JSNum.fin).foldl JSNum.add (JSNum.fin a) = JSNum.fin (a + qs.sum) := by
  induction qs generalizing a with
  | nil => simp
  | cons q qs ih =>
    rw [List.map_cons, List.foldl_cons]
    show List.foldl JSNum.add (JSNum.fin (a + q)) _ = _
    rw [ih, List.sum_cons, add_assoc]

theorem foldl_sq_fin (qs : List ℚ) (a m : ℚ) :
    (qs.map JSNum.fin).foldl
        (fun s w => JSNum.add s
          (JSNum.mul (JSNum.sub w (JSNum.fin m)) (JSNum.sub w (JSNum.fin m))))
        (JSNum.fin a) =
      JSNum.fin (a + (qs.map (fun v => (v - m) ^ 2)).sum) := by
  induction qs generalizing a with
  | nil => simp
  | cons q qs ih =>
    rw [List.map_cons, List.foldl_cons]
    have e : JSNum.add (JSNum.fin a)
        (JSNum.mul (JSNum.sub (JSNum.fin q) (JSNum.fin m))
          (JSNum.sub (JSNum.fin q) (JSNum.fin m))) =
        JSNum.fin (a + (q - m) ^ 2) := by
      simp only [JSNum.sub, JSNum.neg, JSNum.add, JSNum.mul]
      congr 1
      ring
    rw [e, ih, List.map_cons, List.sum_cons, add_assoc]

theorem variance_of_fin (qs : List ℚ) :
    (match qs.map JSNum.fin with
      | [] => JSNum.ofNat 0
      | v :: rest =>
        let n := JSNum.ofNat (v :: rest).length
        let mean := JSNum.div (rest.foldl JSNum.add v) n
        JSNum.div
          ((v :: rest).foldl
            (fun s w => JSNum.add s (JSNum.mul (JSNum.sub w mean) (JSNum.sub w mean)))
            (JSNum.ofNat 0))
          n) = JSNum.fin (populationVariance qs) := by
  cases qs with
  | nil => simp [populationVariance, JSNum.ofNat]
  | cons q rest =>
    have hn : ((rest.length : ℚ) + 1) ≠ 0 := by positivity
    simp only [List.map_cons, List.length_cons, List.length_map, JSNum.ofNat, Nat.cast_add,
      Nat.cast_one, Nat.cast_zero]
    rw [foldl_add_fin]
    simp only [JSNum.div, hn, if_false]
    have h := foldl_sq_fin (q :: rest) 0 ((q + rest.sum) / (rest.length + 1))
    rw [List.map_cons] at h
    rw [h]
    simp [populationVariance, hn]

/-! ## Facts about the aggregation of `handleScan` -/

/-- C6 fails as stated: with an empty probability vector and a one-cell mask
the aggregation does not throw; the accuracy it reports is `-Infinity`. -/
theorem empty_probs_counterexample :
    ∃ r, aggregate [[1]] (JSNum.fin 0) "NO TAMPERING" [] = .ok r ∧
      r.accuracy = JSNum.negInf := by
  refine ⟨_, rfl, ?_⟩
  norm_num [accuracy, mathMax, JSNum.mul, JSNum.infTimes, JSNum.ofNat, JSNum.toFixed]

/-- C6, as the code has it: with an empty probability vector the accuracy
computation does not throw: `Math.max()` is `-Infinity`, the accuracy reported
is `-Infinity`, and the record is produced whenever the tampered percentage
is. -/
theorem accuracy_empty (mask : Mask) (variance : JSNum) (verdict : String) :
    accuracy [] = JSNum.negInf ∧
      aggregate mask variance verdict [] =
        (tamperedPercentage mask).map (fun pct =>
          { verdict := verdict, variance := JSNum.toFixed 2 variance,
            tamperedPercentage := pct, accuracy := JSNum.negInf }) := by
  have h : accuracy [] = JSNum.negInf := by
    norm_num [accuracy, mathMax, JSNum.mul, JSNum.infTimes, JSNum.ofNat, JSNum.toFixed]
  refine ⟨h, ?_⟩
  unfold aggregate
  rw [h]

/-! ## Facts about the heat-map transform of `createCompositeImage` -/

theorem overlayAfter_init (orig : List Nat) : OverlayAfter orig 0 orig := by
  refine ⟨rfl, ?_⟩
  intro j hj
  simp [List.getD, List.getElem?_eq_getElem hj]

theorem overlayAfter_step (orig d : List Nat) (n k : Nat) (hlen : orig.length = 4 * n)
    (hk : k < n) (hinv : OverlayAfter orig k d) :
    OverlayAfter orig (k + 1) (overlayStep d (4 * k)) := by
  obtain ⟨hl, hb⟩ := hinv
  have hval : d[4 * k]? = some (orig.getD (4 * k) 0) := by
    rw [hb (4 * k) (by omega)]
    have : ¬ (4 * k / 4 < k) := by omega
    rw [if_neg this]
  have hold : ∀ j, j < orig.length → j / 4 ≠ k →
      d[j]? = some (if j / 4 < k + 1 then
        overlayByte (orig.getD (4 * (j / 4)) 0) (orig.getD j 0) (j % 4)
      else orig.getD j 0) := by
    intro j hj hne
    rw [hb j hj]
    have e : (j / 4 < k + 1) ↔ (j / 4 < k) := by omega
    simp only [e]
  have hcur : ∀ j, j < orig.length → j / 4 = k → d[j]? = some (orig.getD j 0) := by
    intro j hj he
    rw [hb j hj]
    have : ¬ (j / 4 < k) := by omega
    rw [if_neg this]
  unfold overlayStep
  rw [hval]
  simp only []
  by_cases hv : orig.getD (4 * k) 0 > 20
  · rw [if_pos hv]
    refine ⟨by simp [hl], ?_⟩
    intro j hj
    simp only [List.getElem?_set, List.length_set]
    by_cases hjk : j / 4 = k
    · have h4 : 4 * (j / 4) = 4 * k := by rw [hjk]
      have hlt : j / 4 < k + 1 := by omega
      rw [if_pos hlt, h4]
      have hc : j = 4 * k ∨ j = 4 * k + 1 ∨ j = 4 * k + 2 ∨ j = 4 * k + 3 := by omega
      rcases hc with e | e | e | e
      · subst e
        have m0 : 4 * k % 4 = 0 := by omega
        rw [if_neg (by omega), if_neg (by omega), if_neg (by omega), if_pos rfl,
          if_pos (by omega), m0]
        unfold overlayByte
        rw [if_pos hv]
        simp
      · subst e
        have m0 : (4 * k + 1) % 4 = 1 := by omega
        rw [if_neg (by omega), if_neg (by omega), if_pos rfl, if_pos (by omega), m0]
        unfold overlayByte
        rw [if_pos hv]
        simp
      · subst e
        have m0 : (4 * k + 2) % 4 = 2 := by omega
        rw [if_neg (by omega), if_pos rfl, if_pos (by omega), m0]
        unfold overlayByte
        rw [if_pos hv]
        simp
      · subst e
        have m0 : (4 * k + 3) % 4 = 3 := by omega
        rw [if_pos rfl, if_pos (by omega), m0]
        unfold overlayByte
        rw [if_pos hv]
        simp
    · rw [if_neg (by omega), if_neg (by omega), if_neg (by omega), if_neg (by omega)]
      exact hold j hj hjk
  · rw [if_neg hv]
    refine ⟨by simp [hl], ?_⟩
    intro j hj
    simp only [List.getElem?_set, List.length_set]
    by_cases hjk : j / 4 = k
    · have h4 : 4 * (j / 4) = 4 * k := by rw [hjk]
      have hlt : j / 4 < k + 1 := by omega
      rw [if_pos hlt, h4]
      by_cases e : 4 * k + 3 = j
      · subst e
        have m0 : (4 * k + 3) % 4 = 3 := by omega
        rw [if_pos rfl, if_pos (by omega), m0]
        unfold overlayByte
        rw [if_neg hv]
        simp
      · rw [if_neg e, hcur j hj hjk]
        have m0 : j % 4 ≠ 3 := by omega
        unfold overlayByte
        rw [if_neg hv, if_neg m0]
    · rw [if_neg (by omega)]
      exact hold j hj hjk

theorem overlayAfter_loop (orig : List Nat) (n k : Nat) (hlen : orig.length = 4 * n)
    (hk : k ≤ n) :
    OverlayAfter orig k (((List.range k).map (fun p => 4 * p)).foldl overlayStep orig) := by
  induction k with
  | zero => exact overlayAfter_init orig
  | succ k ih =>
    rw [List.range_succ, List.map_append, List.foldl_append]
    exact overlayAfter_step orig _ n k hlen (by omega) (ih (by omega))

theorem overlayTransform_spec (hData : PixelBuffer) (hwf : hData.WellFormed) :
    OverlayAfter hData.data (hData.width * hData.height) (overlayTransform hData).data := by
  have hn : (hData.data.length + 3) / 4 = hData.width * hData.height := by
    unfold PixelBuffer.WellFormed at hwf
    omega
  unfold overlayTransform offsets
  rw [hn]
  exact overlayAfter_loop hData.data _ _ hwf (Nat.le_refl _)

theorem overlayTransform_channel (hData : PixelBuffer) (hwf : hData.WellFormed)
    (x y c : Nat) (hx : x < hData.width) (hy : y < hData.height) (hc : c < 4) :
    (overlayTransform hData).channel x y c =
      overlayByte (hData.channel x y 0) (hData.channel x y c) c := by
  have hp := pixel_index_lt hData.width hData.height x y hx hy
  obtain ⟨_, hb⟩ := overlayTransform_spec hData hwf
  have hwf' : hData.data.length = 4 * (hData.width * hData.height) := hwf
  have hj : 4 * (y * hData.width + x) + c < hData.data.length := by omega
  have h1 : (4 * (y * hData.width + x) + c) / 4 = y * hData.width + x := by omega
  have h2 : (4 * (y * hData.width + x) + c) % 4 = c := by omega
  have hw : (overlayTransform hData).width = hData.width := rfl
  have := hb _ hj
  rw [h1, h2, if_pos hp] at this
  show (overlayTransform hData).data.getD (4 * (y * hData.width + x) + c) 0 = _
  rw [List.getD_eq_getElem?_getD, this]
  rfl

theorem toUint8Clamp_scaled (val : Nat) (hval : val ≤ 255) :
    toUint8Clamp (scaledAlpha val) = (6 * val + 5) / 10 := by
  unfold toUint8Clamp scaledAlpha
  rcases Nat.eq_zero_or_pos val with h0 | hpos
  · subst h0; simp
  · have hq : ¬ ((val : ℚ) * (3 / 5) ≤ 0) := by
      have : (0 : ℚ) < val := by exact_mod_cast hpos
      intro h; nlinarith
    have hq2 : ¬ ((255 : ℚ) ≤ (val : ℚ) * (3 / 5)) := by
      have : (val : ℚ) ≤ 255 := by exact_mod_cast hval
      intro h; nlinarith
    rw [if_neg hq, if_neg hq2]
    obtain ⟨f, r, hr, hfr⟩ : ∃ f r : Nat, r < 5 ∧ 3 * val = 5 * f + r :=
      ⟨3 * val / 5, 3 * val % 5, Nat.mod_lt _ (by norm_num), (Nat.div_add_mod _ _).symm⟩
    have hcast : (val : ℚ) * (3 / 5) = f + (r : ℚ) / 5 := by
      have : (3 : ℚ) * val = 5 * f + r := by exact_mod_cast hfr
      linarith
    have hr' : (r : ℚ) < 5 := by exact_mod_cast hr
    have hr0 : (0 : ℚ) ≤ r := Nat.cast_nonneg r
    have hfloor : ⌊(val : ℚ) * (3 / 5)⌋₊ = f := by
      rw [Nat.floor_eq_iff (by positivity), hcast]
      constructor <;> linarith
    simp only [hfloor]
    rw [hcast]
    have hres : (6 * val + 5) / 10 = if r ≤ 2 then f else f + 1 := by
      split <;> omega
    rw [hres]
    by_cases h2 : r ≤ 2
    · have h2' : (r : ℚ) ≤ 2 := by exact_mod_cast h2
      rw [if_pos h2, if_neg (by linarith), if_pos (by linarith)]
    · have h2' : (3 : ℚ) ≤ r := by
        have : 3 ≤ r := by omega
        exact_mod_cast this
      rw [if_neg h2, if_pos (by linarith)]

/-- C8: for every pixel of the heat map with first-channel value `val`, the
overlay pixel the loop of `createCompositeImage` produces is `(255, 0, 0)` with
alpha `val * 0.6` stored as a byte when `val > 20`, and has alpha 0 when
`val <= 20`; for a byte `val` the alpha never exceeds 153 and it is exactly 153
when `val = 255`. -/
theorem overlay_pixel (hData : PixelBuffer) (hwf : hData.WellFormed) (x y : Nat)
    (hx : x < hData.width) (hy : y < hData.height) :
    (hData.channel x y 0 > 20 →
        (overlayTransform hData).channel x y 0 = 255 ∧
        (overlayTransform hData).channel x y 1 = 0 ∧
        (overlayTransform hData).channel x y 2 = 0 ∧
        (overlayTransform hData).channel x y 3 =
          toUint8Clamp (scaledAlpha (hData.channel x y 0))) ∧
      (hData.channel x y 0 ≤ 20 → (overlayTransform hData).channel x y 3 = 0) ∧
      (hData.channel x y 0 ≤ 255 → (overlayTransform hData).channel x y 3 ≤ 153) ∧
      (hData.channel x y 0 = 255 → (overlayTransform hData).channel x y 3 = 153) := by
  have hch := fun c (hc : c < 4) => overlayTransform_channel hData hwf x y c hx hy hc
  have halpha : ∀ v, v ≤ 255 → overlayByte v (hData.channel x y 3) 3 ≤ 153 ∧
      (v = 255 → overlayByte v (hData.channel x y 3) 3 = 153) := by
    intro v hv
    unfold overlayByte
    by_cases h20 : v > 20
    · rw [if_pos h20, if_neg (by omega), if_pos rfl, toUint8Clamp_scaled v hv]
      constructor
      · omega
      · intro e; subst e; rfl
    · rw [if_neg h20, if_pos rfl]
      constructor
      · omega
      · intro e; omega
  refine ⟨?_, ?_, ?_, ?_⟩
  · intro hv
    rw [hch 0 (by omega), hch 1 (by omega), hch 2 (by omega), hch 3 (by omega)]
    unfold overlayByte
    simp [hv]
  · intro hv
    rw [hch 3 (by omega)]
    unfold overlayByte
    rw [if_neg (by omega), if_pos rfl]
  · intro hv
    rw [hch 3 (by omega)]
    exact (halpha _ hv).1
  · intro hv
    rw [hch 3 (by omega)]
    exact (halpha _ (by omega)).2 hv

/-- Witness for C8: a pixel of full intensity, whose overlay is red with alpha
153. -/
theorem overlay_pixel_witness :
    (overlayTransform ⟨2, 1, [255, 7, 7, 255, 20, 7, 7, 255]⟩).channel 0 0 0 = 255 ∧
      (overlayTransform ⟨2, 1, [255, 7, 7, 255, 20, 7, 7, 255]⟩).channel 0 0 1 = 0 ∧
      (overlayTransform ⟨2, 1, [255, 7, 7, 255, 20, 7, 7, 255]⟩).channel 0 0 2 = 0 ∧
      (overlayTransform ⟨2, 1, [255, 7, 7, 255, 20, 7, 7, 255]⟩).channel 0 0 3 = 153 ∧
      (overlayTransform ⟨2, 1, [255, 7, 7, 255, 20, 7, 7, 255]⟩).channel 1 0 3 = 0 :=
  ⟨((overlay_pixel ⟨2, 1, [255, 7, 7, 255, 20, 7, 7, 255]⟩ (by decide) 0 0 (by decide)
      (by decide)).1 (by decide)).1,
    ((overlay_pixel ⟨2, 1, [255, 7, 7, 255, 20, 7, 7, 255]⟩ (by decide) 0 0 (by decide)
      (by decide)).1 (by decide)).2.1,
    ((overlay_pixel ⟨2, 1, [255, 7, 7, 255, 20, 7, 7, 255]⟩ (by decide) 0 0 (by decide)
      (by decide)).1 (by decide)).2.2.1,
    (overlay_pixel ⟨2, 1, [255, 7, 7, 255, 20, 7, 7, 255]⟩ (by decide) 0 0 (by decide)
      (by decide)).2.2.2 (by decide),
    (overlay_pixel ⟨2, 1, [255, 7, 7, 255, 20, 7, 7, 255]⟩ (by decide) 1 0 (by decide)
      (by decide)).2.1 (by decide)⟩

theorem set_getD_self (l : List Nat) (k : Nat) : l.set k (l.getD k 0) = l := by
  apply List.ext_getElem?
  intro i
  rw [List.getElem?_set]
  by_cases h : k = i
  · subst h
    by_cases hlt : k < l.length
    · simp [hlt, List.getD, List.getElem?_eq_getElem hlt]
    · simp [hlt]
      omega
  · simp [h]

theorem blendOver_transparent (s d : Nat) : blendOver s 0 d = d := by
  unfold blendOver
  omega

theorem foldl_fixed {α β : Type} (f : β → α → β) (l : List α) (b : β)
    (h : ∀ a, f b a = b) : l.foldl f b = b := by
  induction l with
  | nil => rfl
  | cons a l ih => rw [List.foldl_cons, h a, ih]

theorem drawPixel_transparent (overlay : PixelBuffer) (width height : Nat)
    (dst : List Nat) (x y : Nat)
    (halpha : ∀ j a, j % 4 = 3 → overlay.data[j]? = some a → a = 0) :
    drawPixel overlay width height dst x y = dst := by
  unfold drawPixel
  simp only []
  split
  · next r g b a hr hg hb ha =>
    have h0 : a = 0 := halpha _ a (by omega) ha
    subst h0
    simp only [blendOver_transparent, set_getD_self]
  · rfl

theorem drawImageScaled_transparent (overlay canvas : PixelBuffer)
    (halpha : ∀ j a, j % 4 = 3 → overlay.data[j]? = some a → a = 0) :
    drawImageScaled overlay canvas = canvas := by
  unfold drawImageScaled
  have inner : ∀ (d : List Nat) (y : Nat),
      (List.range canvas.width).foldl
        (fun d x => drawPixel overlay canvas.width canvas.height d x y) d = d := by
    intro d y
    apply foldl_fixed
    intro x
    exact drawPixel_transparent overlay _ _ d x y halpha
  have outer : (List.range canvas.height).foldl
      (fun d y => (List.range canvas.width).foldl
        (fun d x => drawPixel overlay canvas.width canvas.height d x y) d)
      canvas.data = canvas.data := by
    apply foldl_fixed
    intro y
    exact inner canvas.data y
  rw [outer]

/-- C9: for every original and every heat map whose pixels all have a
first-channel value below 20, every overlay pixel has alpha 0, and drawing the
overlay changes no pixel: the composite of `createCompositeImage` is the
original. -/
theorem composite_transparent (original hData : PixelBuffer) (hwf : hData.WellFormed)
    (hlow : ∀ x y, x < hData.width → y < hData.height → hData.channel x y 0 < 20) :
    (∀ x y, x < hData.width → y < hData.height →
        (overlayTransform hData).channel x y 3 = 0) ∧
      createCompositeImage original hData = original := by
  constructor
  · intro x y hx hy
    rw [overlayTransform_channel hData hwf x y 3 hx hy (by omega)]
    unfold overlayByte
    have := hlow x y hx hy
    rw [if_neg (by omega), if_pos rfl]
  · unfold createCompositeImage
    apply drawImageScaled_transparent
    intro j a hj3 hja
    obtain ⟨hl, hb⟩ := overlayTransform_spec hData hwf
    have hwf' : hData.data.length = 4 * (hData.width * hData.height) := hwf
    have hjlt : j < hData.data.length := by
      rw [← hl]
      exact (List.getElem?_eq_some_iff.1 hja).1
    have hp : j / 4 < hData.width * hData.height := by omega
    have hw : 0 < hData.width := by
      rcases Nat.eq_zero_or_pos hData.width with h0 | h0
      · rw [h0] at hp; simp at hp
      · exact h0
    have hy : j / 4 / hData.width < hData.height := by
      rw [Nat.div_lt_iff_lt_mul hw, Nat.mul_comm]; exact hp
    have hx : j / 4 % hData.width < hData.width := Nat.mod_lt _ hw
    have hdecomp : j / 4 / hData.width * hData.width + j / 4 % hData.width = j / 4 := by
      rw [Nat.mul_comm]; exact Nat.div_add_mod _ _
    have hval := hlow _ _ hx hy
    unfold PixelBuffer.channel at hval
    rw [hdecomp, Nat.add_zero] at hval
    have := hb j hjlt
    rw [hja, if_pos hp, hj3] at this
    have e := Option.some.inj this
    rw [e]
    unfold overlayByte
    rw [if_neg (by omega), if_pos rfl]

/-- Witness for C9: a dark heat map of two pixels over a two-pixel original. -/
theorem composite_transparent_witness :
    (∀ x y, x < 2 → y < 1 →
        (overlayTransform ⟨2, 1, [19, 7, 7, 255, 0, 7, 7, 255]⟩).channel x y 3 = 0) ∧
      createCompositeImage ⟨2, 1, [10, 20, 30, 255, 40, 50, 60, 255]⟩
          ⟨2, 1, [19, 7, 7, 255, 0, 7, 7, 255]⟩ =
        ⟨2, 1, [10, 20, 30, 255, 40, 50, 60, 255]⟩ :=
  composite_transparent ⟨2, 1, [10, 20, 30, 255, 40, 50, 60, 255]⟩
    ⟨2, 1, [19, 7, 7, 255, 0, 7, 7, 255]⟩ (by decide)
    (by
      intro x y hx hy
      change x < 2 at hx
      change y < 1 at hy
      have hy0 : y = 0 := by omega
      subst hy0
      have hx' : x = 0 ∨ x = 1 := by omega
      rcases hx' with e | e <;> subst e <;> decide)

/-! ## Facts about the tampered percentage -/

theorem foldl_add_eq_sum (l : List Nat) (a : Nat) :
    l.foldl (fun a b => a + b) a = a + l.sum := by
  induction l generalizing a with
  | nil => simp
  | cons b l ih => rw [List.foldl_cons, ih, List.sum_cons, Nat.add_assoc]

theorem sum_eq_count_one (l : List Nat) (h : ∀ c ∈ l, c = 0 ∨ c = 1) :
    l.sum = l.count 1 := by
  induction l with
  | nil => rfl
  | cons b l ih =>
    have hb := h b (List.mem_cons_self b l)
    have ih' := ih (fun c hc => h c (List.mem_cons_of_mem b hc))
    rcases hb with e | e
    · subst e
      rw [List.sum_cons, ih', List.count_cons_of_ne (by decide), Nat.zero_add]
    · subst e
      rw [List.sum_cons, ih', List.count_cons_self, Nat.add_comm]

theorem grid_flatten_length (mask : Mask) (w : Nat) (h : ∀ row ∈ mask, row.length = w) :
    mask.flatten.length = mask.length * w := by
  induction mask with
  | nil => simp
  | cons row rest ih =>
    rw [List.flatten_cons, List.length_append, h row (List.mem_cons_self row rest),
      ih (fun r hr => h r (List.mem_cons_of_mem row hr)), List.length_cons]
    ring

theorem grid_tamperedPixels (mask : Mask) (w : Nat) (h : mask.IsGrid w) :
    tamperedPixels mask = mask.flatten.count 1 := by
  unfold tamperedPixels
  rw [foldl_add_eq_sum, Nat.zero_add]
  apply sum_eq_count_one
  intro c hc
  obtain ⟨row, hrow, hcr⟩ := List.mem_flatten.1 hc
  exact h.2 row hrow c hcr

theorem grid_totalPixels (mask : Mask) (w : Nat) (h : mask.IsGrid w)
    (hne : mask.flatten ≠ []) : totalPixels mask = .ok mask.flatten.length := by
  cases mask with
  | nil => exact absurd rfl hne
  | cons row rest =>
    rw [grid_flatten_length _ w h.1]
    simp [totalPixels, h.1 row (List.mem_cons_self row rest)]

theorem onesPercent_bounds (mask : Mask) (hne : mask.flatten ≠ []) :
    0 ≤ onesPercent mask ∧ onesPercent mask ≤ 100 := by
  unfold onesPercent
  have hlen : (0 : ℚ) < mask.flatten.length := by
    have : 0 < mask.flatten.length := List.length_pos.2 hne
    exact_mod_cast this
  have hcount : (mask.flatten.count 1 : ℚ) ≤ mask.flatten.length := by
    exact_mod_cast List.count_le_length 1 mask.flatten
  have hc0 : (0 : ℚ) ≤ mask.flatten.count 1 := Nat.cast_nonneg _
  constructor
  · positivity
  · rw [div_mul_eq_mul_div, div_le_iff₀ hlen]
    nlinarith

theorem toFixed_two_of_bounds (q : ℚ) (h0 : 0 ≤ q) (h1 : q ≤ 100) :
    JSNum.toFixed 2 (JSNum.fin q) = JSNum.fin (roundTo2 q) := by
  unfold JSNum.toFixed roundTo2
  have habs : |q| = q := abs_of_nonneg h0
  have hbig : ¬ ((10 : ℚ) ^ 21 ≤ |q|) := by
    rw [habs]
    intro h
    have : (100 : ℚ) < 10 ^ 21 := by norm_num
    linarith
  have hneg : ¬ (q < 0) := not_lt.2 h0
  simp only []
  rw [if_neg hbig, if_neg hneg, habs]
  norm_num

theorem grid_tamperedPercentage (mask : Mask) (w : Nat) (h : mask.IsGrid w)
    (hne : mask.flatten ≠ []) :
    tamperedPercentage mask = .ok (JSNum.fin (roundTo2 (onesPercent mask))) := by
  have hlen : (mask.flatten.length : ℚ) ≠ 0 := by
    have : 0 < mask.flatten.length := List.length_pos.2 hne
    exact_mod_cast Nat.ne_of_gt this
  have hb := onesPercent_bounds mask hne
  unfold tamperedPercentage
  rw [grid_totalPixels mask w h hne, grid_tamperedPixels mask w h]
  simp only [Except.map, JSNum.ofNat, JSNum.div, hlen, if_false, JSNum.mul, Nat.cast_ofNat]
  have e : (mask.flatten.count 1 : ℚ) / (mask.flatten.length : ℚ) * 100 = onesPercent mask := rfl
  rw [e, toFixed_two_of_bounds _ hb.1 hb.2]

theorem roundTo2_mono (p q : ℚ) (h : p ≤ q) : roundTo2 p ≤ roundTo2 q := by
  unfold roundTo2
  have : ⌊p * 100 + 1 / 2⌋ ≤ ⌊q * 100 + 1 / 2⌋ := Int.floor_mono (by linarith)
  have hc : ((⌊p * 100 + 1 / 2⌋ : ℤ) : ℚ) ≤ ((⌊q * 100 + 1 / 2⌋ : ℤ) : ℚ) := by
    exact_mod_cast this
  linarith

/-- C12: for two masks of the data model with the same non-zero dimensions, if
the first has no more cells equal to 1 than the second, then the tampered
percentage computed for the first, after rounding to 2 decimals, is at most
the one computed for the second. -/
theorem tamperedPercentage_monotone (m₁ m₂ : Mask) (w h : Nat) (hw : 0 < w) (hh : 0 < h)
    (g₁ : m₁.IsGrid w) (g₂ : m₂.IsGrid w) (l₁ : m₁.length = h) (l₂ : m₂.length = h)
    (hle : m₁.flatten.count 1 ≤ m₂.flatten.count 1) :
    ∃ p₁ p₂ : ℚ, tamperedPercentage m₁ = .ok (JSNum.fin p₁) ∧
      tamperedPercentage m₂ = .ok (JSNum.fin p₂) ∧ p₁ ≤ p₂ := by
  have hlen₁ : m₁.flatten.length = h * w := by rw [grid_flatten_length m₁ w g₁.1, l₁]
  have hlen₂ : m₂.flatten.length = h * w := by rw [grid_flatten_length m₂ w g₂.1, l₂]
  have hpos : 0 < h * w := Nat.mul_pos hh hw
  have hne₁ : m₁.flatten ≠ [] := List.length_pos.1 (by omega)
  have hne₂ : m₂.flatten ≠ [] := List.length_pos.1 (by omega)
  refine ⟨_, _, grid_tamperedPercentage m₁ w g₁ hne₁, grid_tamperedPercentage m₂ w g₂ hne₂, ?_⟩
  apply roundTo2_mono
  unfold onesPercent
  rw [hlen₁, hlen₂]
  have hq : (0 : ℚ) < ((h * w : ℕ) : ℚ) := by exact_mod_cast hpos
  have hc : (m₁.flatten.count 1 : ℚ) ≤ (m₂.flatten.count 1 : ℚ) := by exact_mod_cast hle
  have := div_le_div_of_nonneg_right hc (le_of_lt hq)
  linarith

/-- Witness for C12: one selected cell against two, in masks of two rows of two
cells. -/
theorem tamperedPercentage_monotone_witness :
    ∃ p₁ p₂ : ℚ, tamperedPercentage [[1, 0], [0, 0]] = .ok (JSNum.fin p₁) ∧
      tamperedPercentage [[0, 1], [1, 0]] = .ok (JSNum.fin p₂) ∧ p₁ ≤ p₂ :=
  tamperedPercentage_monotone [[1, 0], [0, 0]] [[0, 1], [1, 0]] 2 2 (by decide) (by decide)
    ⟨by decide, by decide⟩ ⟨by decide, by decide⟩ rfl rfl (by decide)

/-! ## The sign of the variance and mismatched dimensions -/

theorem populationVariance_nonneg (vs : List ℚ) : 0 ≤ populationVariance vs := by
  unfold populationVariance
  split
  · exact le_refl 0
  · apply div_nonneg
    · apply List.sum_nonneg
      intro v hv
      obtain ⟨u, _, rfl⟩ := List.mem_map.1 hv
      positivity
    · exact Nat.cast_nonneg _

theorem all_fin_eq_map (l : List JSNum) (h : ∀ v ∈ l, ∃ q, v = JSNum.fin q) :
    ∃ qs : List ℚ, l = qs.map JSNum.fin := by
  induction l with
  | nil => exact ⟨[], rfl⟩
  | cons v l ih =>
    obtain ⟨q, hq⟩ := h v (List.mem_cons_self v l)
    obtain ⟨qs, hqs⟩ := ih (fun u hu => h u (List.mem_cons_of_mem v hu))
    exact ⟨q :: qs, by rw [hq, hqs, List.map_cons]⟩

theorem grayAt_fin (img : List Nat) (idx : Nat) (h : idx + 2 < img.length) :
    ∃ q, grayAt img idx = JSNum.fin q := by
  have h0 : idx < img.length := by omega
  have h1 : idx + 1 < img.length := by omega
  refine ⟨((img[idx] : ℚ) + img[idx + 1] + img[idx + 2]) / 3, ?_⟩
  simp [grayAt, List.getElem?_eq_getElem, h0, h1, h, JSNum.ofRead, JSNum.ofNat, JSNum.add,
    JSNum.div]

theorem add_nan_right (a : JSNum) : JSNum.add a JSNum.nan = JSNum.nan := by
  cases a <;> rfl

theorem grayAt_nan (img : List Nat) (idx : Nat) (h : img.length ≤ idx + 2) :
    grayAt img idx = JSNum.nan := by
  have h2 : img[idx + 2]? = none := List.getElem?_eq_none h
  unfold grayAt
  rw [h2]
  show JSNum.div (JSNum.add _ JSNum.nan) _ = _
  rw [add_nan_right]
  rfl

theorem mem_collectVals (width : Nat) (img : List Nat) (mask : Mask) (v : JSNum) :
    v ∈ collectVals width img mask ↔
      ∃ y x, mask.cell? y x = some 1 ∧ x < firstRowLength mask ∧
        v = grayAt img ((y * width + x) * 4) := by
  rw [collectVals_eq, List.mem_flatMap]
  constructor
  · rintro ⟨y, _, hv⟩
    obtain ⟨x, hx, rfl⟩ := List.mem_map.1 hv
    obtain ⟨hxr, hxc⟩ := List.mem_filter.1 hx
    exact ⟨y, x, of_decide_eq_true hxc, List.mem_range.1 hxr, rfl⟩
  · rintro ⟨y, x, hc, hx, rfl⟩
    have hy : y < mask.length := by
      unfold Mask.cell? at hc
      cases hrow : mask[y]? with
      | none => rw [hrow] at hc; simp at hc
      | some row => exact (List.getElem?_eq_some_iff.1 hrow).1
    refine ⟨y, List.mem_range.2 hy, List.mem_map.2 ⟨x, ?_, rfl⟩⟩
    exact List.mem_filter.2 ⟨List.mem_range.2 hx, decide_eq_true hc⟩

theorem foldl_add_nan (l : List JSNum) : l.foldl JSNum.add JSNum.nan = JSNum.nan := by
  induction l with
  | nil => rfl
  | cons a l ih =>
    rw [List.foldl_cons]
    have e : JSNum.add JSNum.nan a = JSNum.nan := by cases a <;> rfl
    rw [e]
    exact ih

theorem foldl_add_mem_nan (l : List JSNum) (init : JSNum) (h : JSNum.nan ∈ l) :
    l.foldl JSNum.add init = JSNum.nan := by
  induction l generalizing init with
  | nil => simp at h
  | cons a l ih =>
    rw [List.foldl_cons]
    rcases List.mem_cons.1 h with e | e
    · rw [← e, add_nan_right, foldl_add_nan]
    · exact ih _ e

theorem foldl_sq_nan (l : List JSNum) (init : JSNum) (hne : l ≠ []) :
    l.foldl
        (fun s w => JSNum.add s
          (JSNum.mul (JSNum.sub w JSNum.nan) (JSNum.sub w JSNum.nan))) init =
      JSNum.nan := by
  have step : ∀ s w : JSNum, JSNum.add s
      (JSNum.mul (JSNum.sub w JSNum.nan) (JSNum.sub w JSNum.nan)) = JSNum.nan := by
    intro s w
    have e : JSNum.sub w JSNum.nan = JSNum.nan := by
      unfold JSNum.sub
      exact add_nan_right w
    rw [e]
    exact add_nan_right s
  induction l generalizing init with
  | nil => exact absurd rfl hne
  | cons a l ih =>
    rw [List.foldl_cons, step]
    cases l with
    | nil => rfl
    | cons b t => exact ih _ (List.cons_ne_nil b t)

theorem variance_of_nan (vals : List JSNum) :
    JSNum.nan ∈ vals → (match vals with
      | [] => JSNum.ofNat 0
      | v :: rest =>
        let n := JSNum.ofNat (v :: rest).length
        let mean := JSNum.div (rest.foldl JSNum.add v) n
        JSNum.div
          ((v :: rest).foldl
            (fun s w => JSNum.add s (JSNum.mul (JSNum.sub w mean) (JSNum.sub w mean)))
            (JSNum.ofNat 0))
          n) = JSNum.nan := by
  intro h
  cases vals with
  | nil => simp at h
  | cons v rest =>
    have hsum : rest.foldl JSNum.add v = JSNum.nan := by
      rcases List.mem_cons.1 h with e | e
      · rw [← e, foldl_add_nan]
      · exact foldl_add_mem_nan rest v e
    simp only [hsum]
    have hmean : JSNum.div JSNum.nan (JSNum.ofNat (v :: rest).length) = JSNum.nan := rfl
    rw [hmean, foldl_sq_nan (v :: rest) _ (List.cons_ne_nil v rest)]
    rfl

/-- C13 fails as stated: for a one-pixel image and a mask of one row of two
selected cells, the second cell reads outside the image data and the value
returned is `NaN`, which is not non-negative. -/
theorem variance_nan_counterexample :
    computeVariance ⟨1, 1, [10, 20, 30, 255]⟩ [[1, 1]] = JSNum.nan ∧
      JSNum.le (JSNum.fin 0) (computeVariance ⟨1, 1, [10, 20, 30, 255]⟩ [[1, 1]]) = false := by
  have h : computeVariance ⟨1, 1, [10, 20, 30, 255]⟩ [[1, 1]] = JSNum.nan := by
    unfold computeVariance
    exact variance_of_nan _
      ((mem_collectVals 1 [10, 20, 30, 255] [[1, 1]] JSNum.nan).2
        ⟨0, 1, rfl, by decide, (grayAt_nan [10, 20, 30, 255] _ (by decide)).symm⟩)
  rw [h]
  exact ⟨rfl, rfl⟩

/-- C13, as the code has it: for every image and every mask whose selected
cells all index a pixel inside the image data, as is the case when the mask has
the dimensions of the image, the value returned by `computeVariance` is a
non-negative number. -/
theorem computeVariance_nonneg (image : PixelBuffer) (mask : Mask)
    (hin : ∀ y x, mask.cell? y x = some 1 → x < firstRowLength mask →
      (y * image.width + x) * 4 + 2 < image.data.length) :
    ∃ q : ℚ, 0 ≤ q ∧ computeVariance image mask = JSNum.fin q := by
  obtain ⟨qs, hqs⟩ := all_fin_eq_map (collectVals image.width image.data mask) (by
    intro v hv
    obtain ⟨y, x, hc, hx, rfl⟩ := (mem_collectVals _ _ _ _).1 hv
    exact grayAt_fin _ _ (hin y x hc hx))
  refine ⟨populationVariance qs, populationVariance_nonneg qs, ?_⟩
  unfold computeVariance
  rw [hqs]
  exact variance_of_fin qs

/-- Witness for C13: two selected pixels inside a two-pixel image. -/
theorem computeVariance_nonneg_witness :
    ∃ q : ℚ, 0 ≤ q ∧
      computeVariance ⟨2, 1, [3, 3, 3, 255, 9, 9, 9, 255]⟩ [[1, 1]] = JSNum.fin q :=
  computeVariance_nonneg ⟨2, 1, [3, 3, 3, 255, 9, 9, 9, 255]⟩ [[1, 1]] (by
    intro y x hc hx
    change x < 2 at hx
    have hy : y = 0 := by
      rcases Nat.eq_zero_or_pos y with h0 | h0
      · exact h0
      · have : ([[1, 1]] : Mask)[y]? = none := List.getElem?_eq_none (by simpa using h0)
        simp [Mask.cell?, this] at hc
    subst hy
    have hx' : x = 0 ∨ x = 1 := by omega
    rcases hx' with e | e <;> subst e <;> decide)

/-- C15 fails as stated: for an image one pixel wide and two pixels high and a
mask of one row of two selected cells, `computeVariance` raises no error: the
cell at column 1 of row 0 reads the pixel at column 0 of row 1, and the value
returned is the variance 225 of the grey values 10 and 40. -/
theorem mismatch_counterexample :
    computeVariance ⟨1, 2, [10, 10, 10, 255, 40, 40, 40, 255]⟩ [[1, 1]] = JSNum.fin 225 := by
  norm_num [computeVariance, collectVals, varianceRow, firstRowLength, Mask.cell?, grayAt,
    JSNum.ofRead, JSNum.ofNat, JSNum.add, JSNum.sub, JSNum.neg, JSNum.mul, JSNum.div,
    List.range_succ]

/-- C15, as the code has it: `computeVariance` has no check of the dimensions
and raises no error.  For every selected cell it reads the image data at index
`(y * width + x) * 4`, wherever that falls, and as soon as one selected cell
reads outside the image data the value returned is `NaN`. -/
theorem computeVariance_out_of_range (image : PixelBuffer) (mask : Mask) (y x : Nat)
    (hcell : mask.cell? y x = some 1) (hx : x < firstRowLength mask)
    (hout : image.data.length ≤ (y * image.width + x) * 4 + 2) :
    computeVariance image mask = JSNum.nan := by
  unfold computeVariance
  exact variance_of_nan _
    ((mem_collectVals _ _ _ _).2 ⟨y, x, hcell, hx, (grayAt_nan _ _ hout).symm⟩)

/-- Witness for C15: a mask wider than a one-pixel image. -/
theorem computeVariance_out_of_range_witness :
    computeVariance ⟨1, 1, [7, 7, 7, 255]⟩ [[0, 1]] = JSNum.nan :=
  computeVariance_out_of_range ⟨1, 1, [7, 7, 7, 255]⟩ [[0, 1]] 0 1 rfl (by decide) (by decide)

/-! ## Masked pixels in the overlay -/

theorem toUint8Clamp_pos (q : ℚ) (h : 1 ≤ q) : 0 < toUint8Clamp q := by
  unfold toUint8Clamp
  rw [if_neg (by linarith)]
  split
  · omega
  · have hf : 1 ≤ ⌊q⌋₊ := Nat.le_floor (by exact_mod_cast h)
    simp only []
    split
    · omega
    · split
      · omega
      · split <;> omega

/-- C16: for every heat map and every position, if `extractMask` marks the
pixel as 1 then the first-channel value of the pixel exceeds 20 and the overlay
pixel of `createCompositeImage` is red with a strictly positive alpha.  The
converse does not hold: the pixel `(30, 200, 200)` is tinted and not masked. -/
theorem masked_pixel_tinted (buf : PixelBuffer) (hwf : buf.WellFormed) :
    (∃ mask, extractMask buf = .ok mask ∧
      ∀ x y, x < buf.width → y < buf.height → mask.cell? y x = some 1 →
        buf.channel x y 0 > 20 ∧
        (overlayTransform buf).channel x y 0 = 255 ∧
        (overlayTransform buf).channel x y 1 = 0 ∧
        (overlayTransform buf).channel x y 2 = 0 ∧
        0 < (overlayTransform buf).channel x y 3) ∧
      (extractMask ⟨1, 1, [30, 200, 200, 255]⟩ = .ok [[0]] ∧
        0 < (overlayTransform ⟨1, 1, [30, 200, 200, 255]⟩).channel 0 0 3) := by
  constructor
  · obtain ⟨m, hm, hinv⟩ := extractMask_spec buf hwf
    refine ⟨m, hm, ?_⟩
    intro x y hx hy hcell
    have hsel : selectedAt buf.data (4 * (y * buf.width + x)) = true := by
      have := hinv.2.2 y x hy hx
      rw [hcell] at this
      have e := Option.some.inj this
      by_contra hcon
      rw [if_neg (fun h => hcon h.2)] at e
      omega
    rw [selectedAt_channel buf hwf x y hx hy, selected_iff] at hsel
    have hval : buf.channel x y 0 > 20 := by
      rcases hsel with h | h <;> omega
    have hch := fun c (hc : c < 4) => overlayTransform_channel buf hwf x y c hx hy hc
    refine ⟨hval, ?_, ?_, ?_, ?_⟩
    · rw [hch 0 (by omega)]; unfold overlayByte; rw [if_pos hval, if_pos rfl]
    · rw [hch 1 (by omega)]; unfold overlayByte
      rw [if_pos hval, if_neg (by omega), if_neg (by omega)]
    · rw [hch 2 (by omega)]; unfold overlayByte
      rw [if_pos hval, if_neg (by omega), if_neg (by omega)]
    · rw [hch 3 (by omega)]; unfold overlayByte
      rw [if_pos hval, if_neg (by omega), if_pos rfl]
      apply toUint8Clamp_pos
      unfold scaledAlpha
      have : (21 : ℚ) ≤ buf.channel x y 0 := by exact_mod_cast hval
      linarith
  · refine ⟨rfl, ?_⟩
    rw [overlayTransform_channel ⟨1, 1, [30, 200, 200, 255]⟩ (by decide) 0 0 3 (by decide)
      (by decide) (by decide)]
    have hv : (⟨1, 1, [30, 200, 200, 255]⟩ : PixelBuffer).channel 0 0 0 = 30 := rfl
    rw [hv]
    unfold overlayByte
    rw [if_pos (by decide), if_neg (by decide), if_pos rfl]
    apply toUint8Clamp_pos
    unfold scaledAlpha
    norm_num

/-- Witness for C16: a bright pixel, masked and tinted, next to a dark one. -/
theorem masked_pixel_tinted_witness :
    (∃ mask, extractMask ⟨2, 1, [100, 100, 100, 255, 0, 0, 0, 255]⟩ = .ok mask ∧
      ∀ x y, x < 2 → y < 1 → mask.cell? y x = some 1 →
        (⟨2, 1, [100, 100, 100, 255, 0, 0, 0, 255]⟩ : PixelBuffer).channel x y 0 > 20 ∧
        (overlayTransform ⟨2, 1, [100, 100, 100, 255, 0, 0, 0, 255]⟩).channel x y 0 = 255 ∧
        (overlayTransform ⟨2, 1, [100, 100, 100, 255, 0, 0, 0, 255]⟩).channel x y 1 = 0 ∧
        (overlayTransform ⟨2, 1, [100, 100, 100, 255, 0, 0, 0, 255]⟩).channel x y 2 = 0 ∧
        0 < (overlayTransform ⟨2, 1, [100, 100, 100, 255, 0, 0, 0, 255]⟩).channel x y 3) ∧
      (extractMask ⟨1, 1, [30, 200, 200, 255]⟩ = .ok [[0]] ∧
        0 < (overlayTransform ⟨1, 1, [30, 200, 200, 255]⟩).channel 0 0 3) :=
  masked_pixel_tinted ⟨2, 1, [100, 100, 100, 255, 0, 0, 0, 255]⟩ (by decide)

/-! ## Double arithmetic on integers -/

theorem bitLength_le (fuel n m : Nat) (h : n < 2 ^ m) : bitLength fuel n ≤ m := by
  induction fuel generalizing n m with
  | zero => simp [bitLength]
  | succ f ih =>
    unfold bitLength
    split
    · omega
    · next hn =>
      cases m with
      | zero =>
        simp at h
        exact absurd h hn
      | succ m =>
        have h2 : n / 2 < 2 ^ m := by
          rw [Nat.pow_succ] at h
          omega
        have := ih (n / 2) m h2
        omega

theorem binExp_le (n d : Nat) :
    binExp n d ≤ (bitLength n n : Int) - (bitLength d d : Int) := by
  unfold binExp
  simp only []
  split <;> split <;> omega

theorem roundHalfEven_one (n : Nat) : roundHalfEven n 1 = n := by
  unfold roundHalfEven
  simp only [Nat.div_one, Nat.mod_one]
  rfl

theorem roundDouble_natCast (k : Nat) (hk : k < 2 ^ 53) : roundDouble (k : ℚ) = k := by
  rcases Nat.eq_zero_or_pos k with h0 | hpos
  · subst h0
    simp [roundDouble]
  · unfold roundDouble
    have hne : (k : ℚ) ≠ 0 := by exact_mod_cast Nat.ne_of_gt hpos
    have hnn : ¬ ((k : ℚ) < 0) := not_lt.2 (Nat.cast_nonneg k)
    rw [if_neg hne]
    simp only [Rat.num_natCast, Rat.den_natCast, Int.natAbs_ofNat, if_neg hnn]
    have hs : binExp k 1 - 52 ≤ 0 := by
      have h1 := binExp_le k 1
      have h2 := bitLength_le k k 53 hk
      have h3 : bitLength 1 1 = 1 := rfl
      omega
    by_cases h0 : 0 ≤ binExp k 1 - 52
    · have e : binExp k 1 - 52 = 0 := by omega
      rw [if_pos h0, e]
      simp [roundHalfEven_one]
    · rw [if_neg h0, roundHalfEven_one]
      have hp : ((2 ^ (-(binExp k 1 - 52)).toNat : Nat) : ℚ) ≠ 0 := by positivity
      push_cast
      field_simp

theorem round_natCast (k : Nat) (hk : k < 2 ^ 53) :
    JSNum.round (JSNum.fin (k : ℚ)) = JSNum.fin (k : ℚ) := by
  simp only [JSNum.round]
  rw [roundDouble_natCast k hk]

theorem addD_natCast (a b : Nat) (h : a + b < 2 ^ 53) :
    JSNum.addD (JSNum.fin (a : ℚ)) (JSNum.fin (b : ℚ)) = JSNum.fin ((a + b : Nat) : ℚ) := by
  simp only [JSNum.addD, JSNum.add]
  rw [← Nat.cast_add]
  exact round_natCast (a + b) h

theorem divD_natCast (k n : Nat) (hn : 0 < n) (hk : k < 2 ^ 53) :
    JSNum.divD (JSNum.fin ((k * n : Nat) : ℚ)) (JSNum.fin (n : ℚ)) = JSNum.fin (k : ℚ) := by
  have hne : (n : ℚ) ≠ 0 := by exact_mod_cast Nat.ne_of_gt hn
  simp only [JSNum.divD, JSNum.div]
  rw [if_neg hne]
  have e : ((k * n : Nat) : ℚ) / (n : ℚ) = (k : ℚ) := by
    push_cast
    field_simp
  rw [e]
  exact round_natCast k hk

theorem sub_self_D (q : ℚ) : JSNum.subD (JSNum.fin q) (JSNum.fin q) = JSNum.fin 0 := by
  simp only [JSNum.subD, JSNum.sub, JSNum.neg, JSNum.add, JSNum.round]
  have e : q + -q = 0 := by ring
  rw [e]
  rfl

theorem foldl_addD_const (rest : List JSNum) (gv a : Nat)
    (hall : ∀ v ∈ rest, v = JSNum.fin (gv : ℚ)) (hb : a + rest.length * gv < 2 ^ 53) :
    rest.foldl JSNum.addD (JSNum.fin (a : ℚ)) =
      JSNum.fin ((a + rest.length * gv : Nat) : ℚ) := by
  induction rest generalizing a with
  | nil => simp
  | cons v rest ih =>
    have hv := hall v (List.mem_cons_self v rest)
    have hlen : (v :: rest).length * gv = gv + rest.length * gv := by
      rw [List.length_cons]; ring
    rw [hlen] at hb
    rw [List.foldl_cons, hv, addD_natCast a gv (by omega),
      ih (a + gv) (fun u hu => hall u (List.mem_cons_of_mem v hu)) (by omega)]
    congr 2
    rw [List.length_cons]
    ring

theorem foldl_sqD_const (l : List JSNum) (q : ℚ) (hall : ∀ v ∈ l, v = JSNum.fin q) :
    l.foldl
        (fun s w => JSNum.addD s
          (JSNum.mulD (JSNum.subD w (JSNum.fin q)) (JSNum.subD w (JSNum.fin q))))
        (JSNum.fin 0) = JSNum.fin 0 := by
  induction l with
  | nil => rfl
  | cons v l ih =>
    have hv := hall v (List.mem_cons_self v l)
    rw [List.foldl_cons, hv, sub_self_D]
    have e : JSNum.addD (JSNum.fin 0) (JSNum.mulD (JSNum.fin 0) (JSNum.fin 0)) =
        JSNum.fin 0 := by
      simp [JSNum.addD, JSNum.mulD, JSNum.add, JSNum.mul, JSNum.round, roundDouble]
    rw [e]
    exact ih (fun u hu => hall u (List.mem_cons_of_mem v hu))

theorem varianceD_const (vals : List JSNum) (gv : Nat) :
    (∀ v ∈ vals, v = JSNum.fin (gv : ℚ)) → vals.length * gv < 2 ^ 53 →
    (match vals with
      | [] => JSNum.ofNat 0
      | v :: rest =>
        let n := JSNum.ofNat (v :: rest).length
        let mean := JSNum.divD (rest.foldl JSNum.addD v) n
        JSNum.divD
          ((v :: rest).foldl
            (fun s w => JSNum.addD s (JSNum.mulD (JSNum.subD w mean) (JSNum.subD w mean)))
            (JSNum.ofNat 0))
          n) = JSNum.fin 0 := by
  intro hall hb
  cases vals with
  | nil => simp [JSNum.ofNat]
  | cons v rest =>
    have hv := hall v (List.mem_cons_self v rest)
    have hrest := fun u hu => hall u (List.mem_cons_of_mem v hu)
    have hlen : (v :: rest).length * gv = gv + rest.length * gv := by
      rw [List.length_cons]; ring
    rw [hlen] at hb
    have hgv : gv < 2 ^ 53 := by omega
    have hsum := foldl_addD_const rest gv gv hrest hb
    have hmul : gv + rest.length * gv = gv * (rest.length + 1) := by ring
    have hmean : JSNum.divD (rest.foldl JSNum.addD v) (JSNum.ofNat (v :: rest).length) =
        JSNum.fin (gv : ℚ) := by
      rw [hv, hsum, hmul]
      exact divD_natCast gv (rest.length + 1) (by omega) hgv
    simp only [hmean]
    have hsq := foldl_sqD_const (v :: rest) (gv : ℚ) hall
    have h0 : JSNum.ofNat 0 = JSNum.fin 0 := by simp [JSNum.ofNat]
    rw [h0, hsq]
    have := divD_natCast 0 (rest.length + 1) (by omega) (by norm_num)
    simpa [JSNum.ofNat] using this

/-! ## The pipeline on uniform images -/

theorem varianceRowD_eq (width : Nat) (img : List Nat) (mask : Mask) (y : Nat)
    (vals : List JSNum) :
    varianceRowD width img mask y vals =
      vals ++ ((List.range (firstRowLength mask)).filter
        (fun x => decide (mask.cell? y x = some 1))).map
        (fun x => grayAtD img ((y * width + x) * 4)) := by
  unfold varianceRowD
  rw [← foldl_push]
  apply List.foldl_ext
  intro vals x _
  by_cases h : mask.cell? y x = some 1 <;> simp [h]

theorem collectValsD_eq (width : Nat) (img : List Nat) (mask : Mask) :
    collectValsD width img mask =
      (List.range mask.length).flatMap (fun y =>
        ((List.range (firstRowLength mask)).filter
          (fun x => decide (mask.cell? y x = some 1))).map
          (fun x => grayAtD img ((y * width + x) * 4))) := by
  unfold collectValsD
  have h := foldl_append_rows (fun y =>
        ((List.range (firstRowLength mask)).filter
          (fun x => decide (mask.cell? y x = some 1))).map
          (fun x => grayAtD img ((y * width + x) * 4))) (List.range mask.length) []
  rw [List.nil_append] at h
  rw [← h]
  apply List.foldl_ext
  intro vals y _
  exact varianceRowD_eq width img mask y vals

theorem length_flatMap_le {α β : Type} (l : List α) (f : α → List β) (c : Nat)
    (h : ∀ a ∈ l, (f a).length ≤ c) : (l.flatMap f).length ≤ l.length * c := by
  induction l with
  | nil => simp
  | cons a l ih =>
    rw [List.flatMap_cons, List.length_append, List.length_cons]
    have h1 := h a (List.mem_cons_self a l)
    have h2 := ih (fun b hb => h b (List.mem_cons_of_mem a hb))
    have h3 : (l.length + 1) * c = l.length * c + c := by ring
    omega

theorem collectValsD_length (width : Nat) (img : List Nat) (mask : Mask) :
    (collectValsD width img mask).length ≤ mask.length * firstRowLength mask := by
  rw [collectValsD_eq]
  have := length_flatMap_le (List.range mask.length) (fun y =>
        ((List.range (firstRowLength mask)).filter
          (fun x => decide (mask.cell? y x = some 1))).map
          (fun x => grayAtD img ((y * width + x) * 4))) (firstRowLength mask) (by
    intro y _
    rw [List.length_map]
    have := List.length_filter_le (fun x => decide (mask.cell? y x = some 1))
      (List.range (firstRowLength mask))
    rw [List.length_range] at this
    exact this)
  rw [List.length_range] at this
  exact this

theorem channel_read (buf : PixelBuffer) (hwf : buf.WellFormed) (x y c : Nat)
    (hx : x < buf.width) (hy : y < buf.height) (hc : c < 4) :
    buf.data[(y * buf.width + x) * 4 + c]? = some (buf.channel x y c) := by
  have hp := pixel_index_lt buf.width buf.height x y hx hy
  have hwf' : buf.data.length = 4 * (buf.width * buf.height) := hwf
  have e : (y * buf.width + x) * 4 + c = 4 * (y * buf.width + x) + c := by omega
  have hlt : 4 * (y * buf.width + x) + c < buf.data.length := by omega
  rw [e]
  unfold PixelBuffer.channel
  rw [List.getD_eq_getElem?_getD, List.getElem?_eq_getElem hlt]
  rfl

theorem extractMask_uniform (heat : PixelBuffer) (hwf : heat.WellFormed) (v : Nat)
    (hu : heat.Uniform v v v) (hv : 50 < v) :
    extractMask heat =
      .ok (List.replicate heat.height (List.replicate heat.width 1)) := by
  obtain ⟨m, hm, hlen, hrows, hcells⟩ := extractMask_spec heat hwf
  rw [hm]
  congr 1
  apply mask_ext heat.width heat.height m _ hlen (by simp) hrows
  · intro row hrow
    rw [List.eq_of_mem_replicate hrow]
    simp
  · intro y x hy hx
    rw [hcells y x hy hx, selectedAt_channel heat hwf x y hx hy]
    obtain ⟨h0, h1, h2⟩ := hu x hx y hy
    rw [h0, h1, h2]
    have hsel : (isRed v v v || isBright v v v) = true := by
      rw [selected_iff]
      right
      simp [hv]
    simp [hsel, pixel_index_lt heat.width heat.height x y hx hy, Mask.cell?,
      List.getElem?_replicate, hy, hx]

theorem allOnes_facts (w h : Nat) :
    (List.replicate h (List.replicate w 1)).flatten.length = w * h ∧
      (List.replicate h (List.replicate w 1)).flatten.count 1 = w * h ∧
      Mask.IsGrid (List.replicate h (List.replicate w 1)) w := by
  have hrows : ∀ row ∈ List.replicate h (List.replicate w 1), row.length = w := by
    intro row hrow
    rw [List.eq_of_mem_replicate hrow]
    simp
  have hlen : (List.replicate h (List.replicate w 1)).flatten.length = w * h := by
    rw [grid_flatten_length _ w hrows, List.length_replicate, Nat.mul_comm]
  have hall : ∀ c ∈ (List.replicate h (List.replicate w 1)).flatten, 1 = c := by
    intro c hc
    obtain ⟨row, hrow, hcr⟩ := List.mem_flatten.1 hc
    rw [List.eq_of_mem_replicate hrow] at hcr
    exact (List.eq_of_mem_replicate hcr).symm
  refine ⟨hlen, ?_, hrows, ?_⟩
  · rw [List.count_eq_length.2 hall, hlen]
  · intro row hrow c hc
    rw [List.eq_of_mem_replicate hrow] at hc
    exact Or.inr (List.eq_of_mem_replicate hc)

/-- C14 fails as stated: for the 10x10 heat map of gray value 100 the mask has
every cell equal to 1, and for the uniform 10x10 original of colour `(1, 0, 0)`
the variance computed in double arithmetic is not 0: the rounded sum of 100
copies of the double nearest `1 / 3` divided by 100 is not that double, and the
result is `49 / 2 ^ 108`, about `1.5e-31`. -/
theorem uniform_variance_counterexample :
    extractMask (uniformBuffer 10 10 100 100 100) =
        .ok (List.replicate 10 (List.replicate 10 1)) ∧
      (uniformBuffer 10 10 1 0 0).Uniform 1 0 0 ∧
      computeVarianceD (uniformBuffer 10 10 1 0 0) (List.replicate 10 (List.replicate 10 1)) =
        JSNum.fin (49 / 2 ^ 108) ∧
      computeVarianceD (uniformBuffer 10 10 1 0 0) (List.replicate 10 (List.replicate 10 1)) ≠
        JSNum.fin 0 := by
  have hwf : (uniformBuffer 10 10 100 100 100).WellFormed := by decide!
  have hu : (uniformBuffer 10 10 100 100 100).Uniform 100 100 100 := by decide!
  have h := extractMask_uniform (uniformBuffer 10 10 100 100 100) hwf 100 hu (by decide)
  have hu' : (uniformBuffer 10 10 1 0 0).Uniform 1 0 0 := by decide!
  have hvar : computeVarianceD (uniformBuffer 10 10 1 0 0)
      (List.replicate 10 (List.replicate 10 1)) = JSNum.fin (49 / 2 ^ 108) := by decide!
  refine ⟨h, hu', hvar, ?_⟩
  rw [hvar]
  intro hcon
  have := JSNum.fin.inj hcon
  norm_num at this

/-! ## Double rounding between integers -/

theorem bitLength_lt (fuel n : Nat) (h : n ≤ fuel) : n < 2 ^ bitLength fuel n := by
  induction fuel generalizing n with
  | zero =>
    have : n = 0 := by omega
    subst this
    simp [bitLength]
  | succ f ih =>
    unfold bitLength
    split
    · next h0 =>
      subst h0
      simp
    · next hn =>
      have h2 : n / 2 ≤ f := by omega
      have := ih (n / 2) h2
      rw [Nat.pow_succ]
      omega

theorem roundHalfEven_ge (a b J : Nat) (hb : 0 < b) (h : J * b ≤ a) :
    J ≤ roundHalfEven a b := by
  have hq : J ≤ a / b := (Nat.le_div_iff_mul_le hb).2 h
  unfold roundHalfEven
  simp only []
  split_ifs <;> omega

theorem roundHalfEven_le (a b J : Nat) (hb : 0 < b) (h : a ≤ J * b) :
    roundHalfEven a b ≤ J := by
  have hdm := Nat.div_add_mod a b
  have hq : a / b ≤ J := by
    apply Nat.div_le_of_le_mul
    rw [Nat.mul_comm]
    exact h
  rcases Nat.lt_or_eq_of_le hq with hlt | heq
  · unfold roundHalfEven
    simp only []
    split_ifs <;> omega
  · have hr : a % b = 0 := by
      rw [heq] at hdm
      have : b * J = J * b := Nat.mul_comm _ _
      omega
    unfold roundHalfEven
    simp only [hr]
    rw [if_pos (by omega)]
    exact hq

theorem binExp_le_52 (n d hi : Nat) (hd : 0 < d) (hn : n ≤ hi * d) (hb : hi < 2 ^ 53) :
    binExp n d ≤ 52 := by
  have h1 : d < 2 ^ bitLength d d := bitLength_lt d d (le_refl d)
  have h2 : n < 2 ^ (53 + bitLength d d) := by
    rw [Nat.pow_add]
    have h3 : hi * d < 2 ^ 53 * d := Nat.mul_lt_mul_of_pos_right hb hd
    have h4 : 2 ^ 53 * d < 2 ^ 53 * 2 ^ bitLength d d :=
      Nat.mul_lt_mul_of_pos_left h1 (by positivity)
    omega
  have h3 : bitLength n n ≤ 53 + bitLength d d := bitLength_le n n _ h2
  have hle := binExp_le n d
  by_cases hl : (bitLength n n : Int) - (bitLength d d : Int) = 53
  · have hcheck : ¬ (d * 9007199254740992 ≤ n) := by
      have h5 : hi * d < 2 ^ 53 * d := Nat.mul_lt_mul_of_pos_right hb hd
      omega
    unfold binExp
    simp only [hl]
    simp [hcheck]
  · omega

theorem roundDouble_sandwich (q : ℚ) (lo hi : Nat) (hlo : (lo : ℚ) ≤ q) (hhi : q ≤ hi)
    (hb : hi < 2 ^ 53) : (lo : ℚ) ≤ roundDouble q ∧ roundDouble q ≤ hi := by
  by_cases h0 : q = 0
  · subst h0
    simp only [roundDouble, if_true]
    exact ⟨hlo, hhi⟩
  · have hq0 : 0 ≤ q := le_trans (Nat.cast_nonneg lo) hlo
    have hqpos : 0 < q := lt_of_le_of_ne hq0 (Ne.symm h0)
    have hnum : 0 < q.num := Rat.num_pos.2 hqpos
    obtain ⟨n, hn⟩ : ∃ n : Nat, q.num = n :=
      ⟨q.num.toNat, (Int.toNat_of_nonneg hnum.le).symm⟩
    have hd : 0 < q.den := q.den_pos
    have hdq : (0 : ℚ) < q.den := by exact_mod_cast hd
    have hqe : q = (n : ℚ) / (q.den : ℚ) := by
      have := (Rat.num_div_den q).symm
      rw [hn, Int.cast_natCast] at this
      exact this
    have hlo' : lo * q.den ≤ n := by
      have h1 : (lo : ℚ) ≤ (n : ℚ) / (q.den : ℚ) := by rw [← hqe]; exact hlo
      have := (le_div_iff₀ hdq).1 h1
      exact_mod_cast this
    have hhi' : n ≤ hi * q.den := by
      have h1 : (n : ℚ) / (q.den : ℚ) ≤ hi := by rw [← hqe]; exact hhi
      have := (div_le_iff₀ hdq).1 h1
      exact_mod_cast this
    have hE := binExp_le_52 n q.den hi hd hhi' hb
    unfold roundDouble
    rw [if_neg h0]
    simp only [hn, Int.natAbs_ofNat, if_neg (not_lt.2 hq0)]
    by_cases hs : 0 ≤ binExp n q.den - 52
    · have e : binExp n q.den - 52 = 0 := by omega
      rw [if_pos hs, e]
      simp only [Int.toNat_zero, pow_zero, Nat.mul_one]
      constructor
      · exact_mod_cast roundHalfEven_ge n q.den lo hd hlo'
      · exact_mod_cast roundHalfEven_le n q.den hi hd hhi'
    · rw [if_neg hs]
      have ht : (0 : ℚ) < ((2 ^ (-(binExp n q.den - 52)).toNat : Nat) : ℚ) := by positivity
      constructor
      · rw [le_div_iff₀ ht]
        have := roundHalfEven_ge (n * 2 ^ (-(binExp n q.den - 52)).toNat) q.den
          (lo * 2 ^ (-(binExp n q.den - 52)).toNat) hd (by
            have := Nat.mul_le_mul_right (2 ^ (-(binExp n q.den - 52)).toNat) hlo'
            rw [Nat.mul_right_comm] at this
            exact this)
        exact_mod_cast this
      · rw [div_le_iff₀ ht]
        have := roundHalfEven_le (n * 2 ^ (-(binExp n q.den - 52)).toNat) q.den
          (hi * 2 ^ (-(binExp n q.den - 52)).toNat) hd (by
            have := Nat.mul_le_mul_right (2 ^ (-(binExp n q.den - 52)).toNat) hhi'
            rw [Nat.mul_right_comm hi] at this
            exact this)
        exact_mod_cast this

theorem roundDouble_neg (q : ℚ) : roundDouble (-q) = -roundDouble q := by
  by_cases h0 : q = 0
  · subst h0
    simp [roundDouble]
  · unfold roundDouble
    rw [if_neg h0, if_neg (neg_ne_zero.2 h0)]
    simp only [Rat.neg_num, Rat.neg_den, Int.natAbs_neg]
    rcases lt_or_gt_of_ne h0 with hneg | hpos
    · rw [if_neg (show ¬ (-q < 0) by linarith), if_pos hneg, neg_neg]
    · rw [if_pos (show -q < 0 by linarith), if_neg (show ¬ (q < 0) by linarith)]

theorem roundDouble_abs_le_one (x : ℚ) (h : |x| ≤ 1) : |roundDouble x| ≤ 1 := by
  rw [abs_le] at h ⊢
  rcases le_total 0 x with hx | hx
  · have := roundDouble_sandwich x 0 1 (by simpa using hx) (by simpa using h.2) (by norm_num)
    constructor <;> [linarith [this.1]; simpa using this.2]
  · have := roundDouble_sandwich (-x) 0 1 (by simpa using hx) (by
      have := h.1
      push_cast
      linarith) (by norm_num)
    rw [roundDouble_neg] at this
    constructor
    · have := this.2
      push_cast at this
      linarith
    · have := this.1
      push_cast at this
      linarith

/-! ## The variance in double arithmetic -/

theorem grayAtD_eq (image : PixelBuffer) (hwf : image.WellFormed) (x y : Nat)
    (hx : x < image.width) (hy : y < image.height) :
    grayAtD image.data ((y * image.width + x) * 4) = JSNum.fin (grayValueD image x y) := by
  have r0 := channel_read image hwf x y 0 hx hy (by omega)
  have r1 := channel_read image hwf x y 1 hx hy (by omega)
  have r2 := channel_read image hwf x y 2 hx hy (by omega)
  rw [Nat.add_zero] at r0
  have h3 : ¬ ((3 : ℚ) = 0) := by norm_num
  unfold grayAtD grayValueD
  rw [r0, r1, r2]
  simp only [JSNum.ofRead, JSNum.ofNat, JSNum.addD, JSNum.add, JSNum.round, JSNum.divD,
    JSNum.div, Nat.cast_ofNat, if_neg h3]

theorem collectValsD_selectedGraysD (image : PixelBuffer) (mask : Mask)
    (hwf : image.WellFormed) (hlen : mask.length = image.height)
    (hrows : ∀ row ∈ mask, row.length = image.width) :
    collectValsD image.width image.data mask =
      (selectedGraysD image mask).map JSNum.fin := by
  rw [collectValsD_eq, hlen]
  unfold selectedGraysD selectedPositions List.product
  rw [List.filter_flatMap, List.map_flatMap, List.map_flatMap]
  apply flatMap_congr_mem
  intro y hy
  have hy' : y < image.height := List.mem_range.1 hy
  rw [firstRowLength_eq mask image.width hrows (by omega)]
  rw [List.filter_map, List.map_map, List.map_map]
  apply List.map_congr_left
  intro x hx
  have hx' : x < image.width := List.mem_range.1 (List.mem_filter.1 hx).1
  simp [grayAtD_eq image hwf x y hx' hy']

theorem foldl_addD_fin (qs : List ℚ) (a : ℚ) :
    (qs.map JSNum.fin).foldl JSNum.addD (JSNum.fin a) =
      JSNum.fin (qs.foldl (fun a b => roundDouble (a + b)) a) := by
  induction qs generalizing a with
  | nil => rfl
  | cons q qs ih =>
    rw [List.map_cons, List.foldl_cons, List.foldl_cons]
    exact ih _

theorem foldl_sqD_fin (qs : List ℚ) (a m : ℚ) :
    (qs.map JSNum.fin).foldl
        (fun s w => JSNum.addD s
          (JSNum.mulD (JSNum.subD w (JSNum.fin m)) (JSNum.subD w (JSNum.fin m))))
        (JSNum.fin a) =
      JSNum.fin (qs.foldl
        (fun s v => roundDouble (s +
          roundDouble (roundDouble (v - m) * roundDouble (v - m)))) a) := by
  induction qs generalizing a with
  | nil => rfl
  | cons q qs ih =>
    rw [List.map_cons, List.foldl_cons, List.foldl_cons]
    have e : JSNum.addD (JSNum.fin a)
        (JSNum.mulD (JSNum.subD (JSNum.fin q) (JSNum.fin m))
          (JSNum.subD (JSNum.fin q) (JSNum.fin m))) =
        JSNum.fin (roundDouble (a +
          roundDouble (roundDouble (q - m) * roundDouble (q - m)))) := by
      simp only [JSNum.addD, JSNum.mulD, JSNum.subD, JSNum.sub, JSNum.neg, JSNum.add,
        JSNum.mul, JSNum.round, sub_eq_add_neg]
    rw [e]
    exact ih _

theorem varianceD_of_fin (qs : List ℚ) :
    (match qs.map JSNum.fin with
      | [] => JSNum.ofNat 0
      | v :: rest =>
        let n := JSNum.ofNat (v :: rest).length
        let mean := JSNum.divD (rest.foldl JSNum.addD v) n
        JSNum.divD
          ((v :: rest).foldl
            (fun s w => JSNum.addD s (JSNum.mulD (JSNum.subD w mean) (JSNum.subD w mean)))
            (JSNum.ofNat 0))
          n) = JSNum.fin (populationVarianceD qs) := by
  cases qs with
  | nil => simp [populationVarianceD, JSNum.ofNat]
  | cons q rest =>
    have hn : ¬ (((rest.length : ℚ) + 1) = 0) := by positivity
    have hmean : JSNum.divD (List.foldl JSNum.addD (JSNum.fin q) (rest.map JSNum.fin))
        (JSNum.ofNat (JSNum.fin q :: rest.map JSNum.fin).length) =
        JSNum.fin (roundDouble (sumD (q :: rest) / ((q :: rest).length : ℚ))) := by
      rw [foldl_addD_fin]
      simp only [JSNum.divD, JSNum.div, JSNum.ofNat, JSNum.round, List.length_cons,
        List.length_map, Nat.cast_add, Nat.cast_one, if_neg hn, sumD]
    simp only [List.map_cons]
    rw [hmean]
    have h0 : JSNum.ofNat 0 = JSNum.fin 0 := by simp [JSNum.ofNat]
    have hsq := foldl_sqD_fin (q :: rest) 0
      (roundDouble (sumD (q :: rest) / ((q :: rest).length : ℚ)))
    rw [List.map_cons] at hsq
    rw [h0, hsq]
    simp only [JSNum.divD, JSNum.div, JSNum.ofNat, JSNum.round, List.length_cons,
      List.length_map, Nat.cast_add, Nat.cast_one, if_neg hn, populationVarianceD,
      if_neg (List.cons_ne_nil q rest)]

/-- C3, as the code has it: for every image data of the original and every mask
of the same dimensions, `computeVariance` returns the population variance
formula (the sum of the squared deviations from the mean, divided by the number
of values) evaluated in double arithmetic, every operation rounded to a double,
on the values `(R + G + B) / 3` of exactly the pixels at the positions where
`mask[y][x]` is 1, taken row after row. -/
theorem computeVariance_population_double (image : PixelBuffer) (mask : Mask)
    (hwf : image.WellFormed) (hlen : mask.length = image.height)
    (hrows : ∀ row ∈ mask, row.length = image.width) :
    computeVarianceD image mask =
      JSNum.fin (populationVarianceD (selectedGraysD image mask)) := by
  unfold computeVarianceD
  rw [collectValsD_selectedGraysD image mask hwf hlen hrows]
  exact varianceD_of_fin _

/-- C3 fails as stated: ten selected pixels of the same colour `(1, 0, 0)` have
the same grey value, so the population variance of their grey values is 0, but
the value the code computes in double arithmetic is `1 / 2 ^ 108`: the rounded
sum of ten copies of the double nearest `1 / 3`, divided by 10, is not that
double. -/
theorem variance_rounding_counterexample :
    computeVarianceD (uniformBuffer 10 1 1 0 0) [List.replicate 10 1] =
        JSNum.fin (1 / 2 ^ 108) ∧
      populationVariance (selectedGrays (uniformBuffer 10 1 1 0 0) [List.replicate 10 1]) =
        0 := by
  have h1 : computeVarianceD (uniformBuffer 10 1 1 0 0) [List.replicate 10 1] =
      JSNum.fin (1 / 2 ^ 108) := by decide!
  have h2 : populationVariance
      (selectedGrays (uniformBuffer 10 1 1 0 0) [List.replicate 10 1]) = 0 := by decide!
  exact ⟨h1, h2⟩

/-- Witness for C3: two selected pixels of grey values 3 and 9, of mean 6 and
variance 9, all exact in double arithmetic. -/
theorem computeVariance_population_double_witness :
    computeVarianceD ⟨2, 1, [3, 3, 3, 255, 9, 9, 9, 255]⟩ [[1, 1]] =
        JSNum.fin (populationVarianceD
          (selectedGraysD ⟨2, 1, [3, 3, 3, 255, 9, 9, 9, 255]⟩ [[1, 1]])) ∧
      populationVarianceD (selectedGraysD ⟨2, 1, [3, 3, 3, 255, 9, 9, 9, 255]⟩ [[1, 1]]) = 9 :=
  ⟨computeVariance_population_double ⟨2, 1, [3, 3, 3, 255, 9, 9, 9, 255]⟩ [[1, 1]] (by decide)
      (by decide) (by decide),
    by decide!⟩

/-! ## The tampered percentage in double arithmetic -/

theorem ratio_bounds (c n : Nat) (hn : 0 < n) (hc : c ≤ n) :
    (((0 : Nat) : ℚ) ≤ (c : ℚ) / (n : ℚ)) ∧ ((c : ℚ) / (n : ℚ) ≤ ((1 : Nat) : ℚ)) := by
  have hq : (0 : ℚ) < n := by exact_mod_cast hn
  have hcq : (c : ℚ) ≤ n := by exact_mod_cast hc
  constructor
  · simp only [Nat.cast_zero]
    positivity
  · rw [Nat.cast_one, div_le_one hq]
    exact hcq

theorem percentD_bounds (c n : Nat) (hn : 0 < n) (hc : c ≤ n) :
    0 ≤ roundDouble (roundDouble ((c : ℚ) / (n : ℚ)) * 100) ∧
      roundDouble (roundDouble ((c : ℚ) / (n : ℚ)) * 100) ≤ 100 := by
  obtain ⟨h0, h1⟩ := ratio_bounds c n hn hc
  obtain ⟨a0, a1⟩ := roundDouble_sandwich _ 0 1 h0 h1 (by norm_num)
  simp only [Nat.cast_zero, Nat.cast_one] at a0 a1
  have b := roundDouble_sandwich (roundDouble ((c : ℚ) / (n : ℚ)) * 100) 0 100
    (by simp only [Nat.cast_zero]; positivity)
    (by simp only [Nat.cast_ofNat]; linarith) (by norm_num)
  simpa using b

theorem grid_tamperedPercentageD (mask : Mask) (w : Nat) (h : mask.IsGrid w)
    (hne : mask.flatten ≠ []) :
    tamperedPercentageD mask =
      .ok (JSNum.fin (roundTo2 (roundDouble
        (roundDouble ((mask.flatten.count 1 : ℚ) / (mask.flatten.length : ℚ)) * 100)))) := by
  have hpos : 0 < mask.flatten.length := List.length_pos.2 hne
  have hlen : ¬ ((mask.flatten.length : ℚ) = 0) := by
    exact_mod_cast Nat.ne_of_gt hpos
  have hb := percentD_bounds (mask.flatten.count 1) mask.flatten.length hpos
    (List.count_le_length 1 mask.flatten)
  unfold tamperedPercentageD
  rw [grid_totalPixels mask w h hne, grid_tamperedPixels mask w h]
  simp only [Except.map, JSNum.ofNat, JSNum.divD, JSNum.div, if_neg hlen, JSNum.mulD,
    JSNum.mul, JSNum.round, Nat.cast_ofNat]
  rw [toFixed_two_of_bounds _ hb.1 hb.2]

theorem tamperedPercentage_bounds (mask : Mask) (w : Nat) (hgrid : mask.IsGrid w)
    (hne : mask.flatten ≠ []) :
    tamperedPercentageD mask =
        .ok (JSNum.fin (roundTo2 (roundDouble
          (roundDouble ((mask.flatten.count 1 : ℚ) / (mask.flatten.length : ℚ)) * 100)))) ∧
      0 ≤ roundTo2 (roundDouble
          (roundDouble ((mask.flatten.count 1 : ℚ) / (mask.flatten.length : ℚ)) * 100)) ∧
      roundTo2 (roundDouble
          (roundDouble ((mask.flatten.count 1 : ℚ) / (mask.flatten.length : ℚ)) * 100)) ≤
        100 := by
  have hpos : 0 < mask.flatten.length := List.length_pos.2 hne
  have hb := percentD_bounds (mask.flatten.count 1) mask.flatten.length hpos
    (List.count_le_length 1 mask.flatten)
  have r0 : roundTo2 0 = 0 := by
    unfold roundTo2
    have : ⌊(0 : ℚ) * 100 + 1 / 2⌋ = 0 := by
      rw [Int.floor_eq_iff]; constructor <;> norm_num
    rw [this]; norm_num
  have r100 : roundTo2 100 = 100 := by
    unfold roundTo2
    have : ⌊(100 : ℚ) * 100 + 1 / 2⌋ = 10000 := by
      rw [Int.floor_eq_iff]; constructor <;> norm_num
    rw [this]; norm_num
  refine ⟨grid_tamperedPercentageD mask w hgrid hne, ?_, ?_⟩
  · have := roundTo2_mono _ _ hb.1
    rw [r0] at this
    exact this
  · have := roundTo2_mono _ _ hb.2
    rw [r100] at this
    exact this

/-- C11 fails as stated: for a mask of 160 cells of which 23 are 1 the exact
ratio times 100 is 14.375, which rounded to 2 decimal places is 14.38, but the
code prints 14.37: the double product is just below 14.375. -/
theorem percentage_rounding_counterexample :
    tamperedPercentageD [List.replicate 23 1 ++ List.replicate 137 0] =
        .ok (JSNum.fin (1437 / 100)) ∧
      onesPercent [List.replicate 23 1 ++ List.replicate 137 0] = 14375 / 1000 ∧
      roundTo2 (onesPercent [List.replicate 23 1 ++ List.replicate 137 0]) = 1438 / 100 := by
  have hgrid : Mask.IsGrid [List.replicate 23 1 ++ List.replicate 137 0] 160 := by
    constructor <;> decide!
  have h1 := grid_tamperedPercentageD [List.replicate 23 1 ++ List.replicate 137 0] 160 hgrid
    (by decide!)
  have h2 : roundTo2 (roundDouble (roundDouble
      ((([List.replicate 23 1 ++ List.replicate 137 0] : Mask).flatten.count 1 : ℚ) /
        (([List.replicate 23 1 ++ List.replicate 137 0] : Mask).flatten.length : ℚ)) * 100)) =
      1437 / 100 := by decide!
  rw [h2] at h1
  exact ⟨h1, by decide!, by decide!⟩

/-- C11, as the code has it: for every mask of the data model (a grid of cells 0
or 1) with at least one cell, the tampered percentage computed in `handleScan`
is the number of cells equal to 1 divided by the total number of cells, times
100, both operations in double arithmetic, and that double rounded to 2 decimal
places by `toFixed`; it lies between 0 and 100. -/
theorem tamperedPercentage_double (mask : Mask) (w : Nat) (hgrid : mask.IsGrid w)
    (hne : mask.flatten ≠ []) :
    tamperedPercentageD mask =
        .ok (JSNum.fin (roundTo2 (roundDouble
          (roundDouble ((mask.flatten.count 1 : ℚ) / (mask.flatten.length : ℚ)) * 100)))) ∧
      0 ≤ roundTo2 (roundDouble
          (roundDouble ((mask.flatten.count 1 : ℚ) / (mask.flatten.length : ℚ)) * 100)) ∧
      roundTo2 (roundDouble
          (roundDouble ((mask.flatten.count 1 : ℚ) / (mask.flatten.length : ℚ)) * 100)) ≤
        100 :=
  tamperedPercentage_bounds mask w hgrid hne

/-- Witness for C11: one selected cell out of three. -/
theorem tamperedPercentage_double_witness :
    tamperedPercentageD [[1, 0, 0]] =
        .ok (JSNum.fin (roundTo2 (roundDouble
          (roundDouble ((([[1, 0, 0]] : Mask).flatten.count 1 : ℚ) /
            (([[1, 0, 0]] : Mask).flatten.length : ℚ)) * 100)))) ∧
      0 ≤ roundTo2 (roundDouble
          (roundDouble ((([[1, 0, 0]] : Mask).flatten.count 1 : ℚ) /
            (([[1, 0, 0]] : Mask).flatten.length : ℚ)) * 100)) ∧
      roundTo2 (roundDouble
          (roundDouble ((([[1, 0, 0]] : Mask).flatten.count 1 : ℚ) /
            (([[1, 0, 0]] : Mask).flatten.length : ℚ)) * 100)) ≤ 100 :=
  tamperedPercentage_double [[1, 0, 0]] 3 ⟨by decide, by decide⟩ (by decide)

/-! ## Heat maps without pixels -/

theorem getImageData_ok (canvas : PixelBuffer) (hw : 0 < canvas.width)
    (hh : 0 < canvas.height) : getImageData canvas = .ok canvas := by
  unfold getImageData
  rw [if_neg (by omega)]

theorem getImageData_error (canvas : PixelBuffer)
    (h : canvas.width = 0 ∨ canvas.height = 0) :
    getImageData canvas = .error "IndexSizeError" := by
  unfold getImageData
  rw [if_pos h]

theorem extractMask_grid (buf : PixelBuffer) (hwf : buf.WellFormed) :
    ∃ mask, extractMask buf = .ok mask ∧ mask.length = buf.height ∧
      mask.IsGrid buf.width := by
  obtain ⟨m, hm, hlen, hrows, hcells⟩ := extractMask_spec buf hwf
  refine ⟨m, hm, hlen, hrows, ?_⟩
  intro row hrow c hc
  obtain ⟨y, hy, hyr⟩ := List.getElem_of_mem hrow
  obtain ⟨x, hx, hxc⟩ := List.getElem_of_mem hc
  have hcell := hcells y x (by omega) (by rw [← hrows row hrow]; exact hx)
  have hread : m.cell? y x = some c := by
    simp [Mask.cell?, List.getElem?_eq_getElem hy, hyr, List.getElem?_eq_getElem hx, hxc]
  rw [hread] at hcell
  have := Option.some.inj hcell
  split at this <;> omega

/-- C10 fails as stated: for a heat map of zero width `getImageData` throws, so
`extractMask` fails and returns no mask. -/
theorem zero_size_extract_counterexample :
    (⟨0, 1, []⟩ : PixelBuffer).WellFormed ∧
      extractMaskOfImage ⟨0, 1, []⟩ = .error "IndexSizeError" :=
  ⟨by decide, rfl⟩

/-- C10, as the code has it: for every heat map of width `W > 0` and height
`H > 0`, `extractMask` does not throw and returns a mask of exactly `H` rows,
each of exactly `W` cells, every cell being 0 or 1; for a heat map with zero
pixels (`W = 0` or `H = 0`) `getImageData` throws an `IndexSizeError` and
`extractMask` returns no mask. -/
theorem extractMaskOfImage_shape (img : PixelBuffer) (hwf : img.WellFormed) :
    (0 < img.width → 0 < img.height →
      ∃ mask, extractMaskOfImage img = .ok mask ∧ mask.length = img.height ∧
        ∀ row ∈ mask, row.length = img.width ∧ ∀ c ∈ row, c = 0 ∨ c = 1) ∧
      (img.width = 0 ∨ img.height = 0 →
        extractMaskOfImage img = .error "IndexSizeError") := by
  constructor
  · intro hw hh
    obtain ⟨m, hm, hlen, hrows, hbin⟩ := extractMask_grid img hwf
    refine ⟨m, ?_, hlen, fun row hrow => ⟨hrows row hrow, hbin row hrow⟩⟩
    unfold extractMaskOfImage
    rw [getImageData_ok img hw hh]
    exact hm
  · intro h
    unfold extractMaskOfImage
    rw [getImageData_error img h]
    rfl

/-- Witness for C10: a heat map of two pixels in one row, and one of zero
height. -/
theorem extractMaskOfImage_shape_witness :
    (∃ mask, extractMaskOfImage ⟨2, 1, [100, 100, 100, 255, 0, 0, 0, 255]⟩ = .ok mask ∧
        mask.length = 1 ∧ ∀ row ∈ mask, row.length = 2 ∧ ∀ c ∈ row, c = 0 ∨ c = 1) ∧
      extractMaskOfImage ⟨3, 0, []⟩ = .error "IndexSizeError" :=
  ⟨(extractMaskOfImage_shape ⟨2, 1, [100, 100, 100, 255, 0, 0, 0, 255]⟩ (by decide)).1
      (by decide) (by decide),
    (extractMaskOfImage_shape ⟨3, 0, []⟩ (by decide)).2 (Or.inr rfl)⟩

/-- C5: for a heat map without pixels, and so for a mask that would have zero
cells, `handleScan` fails with an error and builds no record: the image data of
the heat map cannot be read, so the division of the aggregation is never
reached.  A mask that `extractMask` does return has at least one cell, and
every scan that completes reports a tampered percentage that is a number
between 0 and 100, never `NaN`. -/
theorem zero_size_scan_fails (overlay original : PixelBuffer) (ai_probs : List JSNum) :
    (overlay.width = 0 ∨ overlay.height = 0 →
        handleScan overlay original ai_probs = .error "IndexSizeError") ∧
      (overlay.WellFormed → ∀ mask, extractMaskOfImage overlay = .ok mask →
        mask.flatten ≠ []) ∧
      (overlay.WellFormed → ∀ r, handleScan overlay original ai_probs = .ok r →
        ∃ q : ℚ, r.tamperedPercentage = JSNum.fin q ∧ 0 ≤ q ∧ q ≤ 100) := by
  refine ⟨?_, ?_, ?_⟩
  · intro h
    unfold handleScan
    rw [getImageData_error overlay h]
    rfl
  · intro hwf mask hmask
    by_cases hz : overlay.width = 0 ∨ overlay.height = 0
    · unfold extractMaskOfImage at hmask
      rw [getImageData_error overlay hz] at hmask
      exact absurd hmask (by simp [Except.bind])
    · have hw : 0 < overlay.width := by omega
      have hh : 0 < overlay.height := by omega
      obtain ⟨m, hm, hlen, hgrid⟩ := extractMask_grid overlay hwf
      unfold extractMaskOfImage at hmask
      rw [getImageData_ok overlay hw hh] at hmask
      have hmm : extractMask overlay = .ok mask := hmask
      rw [hm] at hmm
      have hmeq : m = mask := Except.ok.inj hmm
      subst hmeq
      apply List.ne_nil_of_length_pos
      rw [grid_flatten_length m overlay.width hgrid.1, hlen]
      exact Nat.mul_pos hh hw
  · intro hwf r hr
    by_cases hz : overlay.width = 0 ∨ overlay.height = 0
    · unfold handleScan at hr
      rw [getImageData_error overlay hz] at hr
      exact absurd hr (by simp [Except.bind])
    · have hw : 0 < overlay.width := by omega
      have hh : 0 < overlay.height := by omega
      obtain ⟨m, hm, hlen, hgrid⟩ := extractMask_grid overlay hwf
      have hne : m.flatten ≠ [] := by
        apply List.ne_nil_of_length_pos
        rw [grid_flatten_length m overlay.width hgrid.1, hlen]
        exact Nat.mul_pos hh hw
      obtain ⟨hp, hp0, hp1⟩ := tamperedPercentage_bounds m overlay.width hgrid hne
      unfold handleScan extractMaskOfImage at hr
      rw [getImageData_ok overlay hw hh] at hr
      simp only [Except.bind, hm] at hr
      cases hg : getImageData original with
      | error e =>
        rw [hg] at hr
        simp at hr
      | ok image =>
        rw [hg] at hr
        simp only [hp, Except.map] at hr
        have hr' := Except.ok.inj hr
        refine ⟨_, ?_, hp0, hp1⟩
        rw [← hr']

/-- Witness for C5: a heat map of zero width, for which the scan fails. -/
theorem zero_size_scan_fails_witness :
    handleScan ⟨0, 1, []⟩ ⟨1, 1, [10, 20, 30, 255]⟩ [JSNum.fin 1] =
      .error "IndexSizeError" :=
  (zero_size_scan_fails ⟨0, 1, []⟩ ⟨1, 1, [10, 20, 30, 255]⟩ [JSNum.fin 1]).1 (Or.inl rfl)

/-! ## The variance of a uniform original in double arithmetic -/

theorem foldl_addD_between (rest : List JSNum) (w : ℚ) (lo hi : Nat)
    (hall : ∀ v ∈ rest, v = JSNum.fin w) (hlo : (lo : ℚ) ≤ w) (hhi : w ≤ hi)
    (a : ℚ) (k : Nat) (ha : ((k * lo : Nat) : ℚ) ≤ a) (ha' : a ≤ ((k * hi : Nat) : ℚ))
    (hb : (k + rest.length) * hi < 2 ^ 53) :
    ∃ S : ℚ, rest.foldl JSNum.addD (JSNum.fin a) = JSNum.fin S ∧
      (((k + rest.length) * lo : Nat) : ℚ) ≤ S ∧ S ≤ (((k + rest.length) * hi : Nat) : ℚ) := by
  induction rest generalizing a k with
  | nil => exact ⟨a, rfl, by simpa using ha, by simpa using ha'⟩
  | cons v rest ih =>
    have hv := hall v (List.mem_cons_self v rest)
    have hlen : k + (v :: rest).length = (k + 1) + rest.length := by
      rw [List.length_cons]; omega
    rw [hlen] at hb ⊢
    have hk1 : (k + 1) * hi < 2 ^ 53 := by
      have : (k + 1) * hi ≤ (k + 1 + rest.length) * hi :=
        Nat.mul_le_mul_right hi (by omega)
      omega
    have hsand := roundDouble_sandwich (a + w) ((k + 1) * lo) ((k + 1) * hi)
      (by push_cast at ha ⊢; linarith) (by push_cast at ha' ⊢; linarith) hk1
    rw [List.foldl_cons, hv]
    have e : JSNum.addD (JSNum.fin a) (JSNum.fin w) = JSNum.fin (roundDouble (a + w)) := by
      simp only [JSNum.addD, JSNum.add, JSNum.round]
    rw [e]
    exact ih (fun u hu => hall u (List.mem_cons_of_mem v hu)) _ (k + 1) hsand.1 hsand.2 hb

theorem foldl_sqD_between (l : List JSNum) (w m : ℚ) (hall : ∀ v ∈ l, v = JSNum.fin w)
    (hd : |w - m| ≤ 1) (A : ℚ) (k : Nat) (hA : 0 ≤ A) (hA' : A ≤ (k : ℚ))
    (hb : k + l.length < 2 ^ 53) :
    ∃ B : ℚ, l.foldl
        (fun s v => JSNum.addD s
          (JSNum.mulD (JSNum.subD v (JSNum.fin m)) (JSNum.subD v (JSNum.fin m))))
        (JSNum.fin A) = JSNum.fin B ∧ 0 ≤ B ∧ B ≤ ((k + l.length : Nat) : ℚ) := by
  induction l generalizing A k with
  | nil => exact ⟨A, rfl, hA, by simpa using hA'⟩
  | cons v l ih =>
    have hv := hall v (List.mem_cons_self v l)
    have hlen : k + (v :: l).length = (k + 1) + l.length := by
      rw [List.length_cons]; omega
    rw [hlen] at hb ⊢
    have hdev := roundDouble_abs_le_one (w - m) hd
    have hsq0 : 0 ≤ roundDouble (w - m) * roundDouble (w - m) := mul_self_nonneg _
    have hsq1 : roundDouble (w - m) * roundDouble (w - m) ≤ 1 := by
      have := abs_le.1 hdev
      nlinarith [this.1, this.2]
    have hs := roundDouble_sandwich (roundDouble (w - m) * roundDouble (w - m)) 0 1
      (by simpa using hsq0) (by simpa using hsq1) (by norm_num)
    simp only [Nat.cast_zero, Nat.cast_one] at hs
    have hacc := roundDouble_sandwich
      (A + roundDouble (roundDouble (w - m) * roundDouble (w - m))) 0 (k + 1)
      (by simp only [Nat.cast_zero]; linarith [hs.1])
      (by push_cast; linarith [hs.2]) (by omega)
    rw [List.foldl_cons, hv]
    have e : JSNum.addD (JSNum.fin A)
        (JSNum.mulD (JSNum.subD (JSNum.fin w) (JSNum.fin m))
          (JSNum.subD (JSNum.fin w) (JSNum.fin m))) =
        JSNum.fin (roundDouble (A +
          roundDouble (roundDouble (w - m) * roundDouble (w - m)))) := by
      simp only [JSNum.addD, JSNum.mulD, JSNum.subD, JSNum.sub, JSNum.neg, JSNum.add,
        JSNum.mul, JSNum.round, sub_eq_add_neg]
    rw [e]
    exact ih (fun u hu => hall u (List.mem_cons_of_mem v hu)) _ (k + 1)
      (by simpa using hacc.1) hacc.2 hb

theorem varianceD_between (vals : List JSNum) (w : ℚ) (lo hi : Nat) :
    (∀ v ∈ vals, v = JSNum.fin w) → (lo : ℚ) ≤ w → w ≤ hi → hi ≤ lo + 1 →
    vals.length * hi < 2 ^ 53 → vals.length < 2 ^ 53 →
    ∃ q : ℚ, (match vals with
      | [] => JSNum.ofNat 0
      | v :: rest =>
        let n := JSNum.ofNat (v :: rest).length
        let mean := JSNum.divD (rest.foldl JSNum.addD v) n
        JSNum.divD
          ((v :: rest).foldl
            (fun s w => JSNum.addD s (JSNum.mulD (JSNum.subD w mean) (JSNum.subD w mean)))
            (JSNum.ofNat 0))
          n) = JSNum.fin q ∧ 0 ≤ q ∧ q ≤ 1 := by
  intro hall hlo hhi hgap hb hb'
  cases vals with
  | nil => exact ⟨0, by simp [JSNum.ofNat], le_refl 0, by norm_num⟩
  | cons v rest =>
    have hv := hall v (List.mem_cons_self v rest)
    subst hv
    have hrest := fun u hu => hall u (List.mem_cons_of_mem (JSNum.fin w) hu)
    have hlen : (JSNum.fin w :: rest).length = 1 + rest.length := by
      rw [List.length_cons]; omega
    rw [hlen] at hb hb'
    have hnpos : (0 : ℚ) < ((1 + rest.length : Nat) : ℚ) := by
      exact_mod_cast (by omega : 0 < 1 + rest.length)
    have hn : ¬ (((1 + rest.length : Nat) : ℚ) = 0) := ne_of_gt hnpos
    obtain ⟨S, hS, hS0, hS1⟩ := foldl_addD_between rest w lo hi hrest hlo hhi w 1
      (by simpa using hlo) (by simpa using hhi) hb
    -- the mean lies between lo and hi
    have hmlo : (lo : ℚ) ≤ S / ((1 + rest.length : Nat) : ℚ) := by
      rw [le_div_iff₀ hnpos]
      push_cast at hS0 ⊢
      linarith
    have hmhi : S / ((1 + rest.length : Nat) : ℚ) ≤ (hi : ℚ) := by
      rw [div_le_iff₀ hnpos]
      push_cast at hS1 ⊢
      linarith
    have hhi53 : hi < 2 ^ 53 := by
      have : 1 * hi ≤ (1 + rest.length) * hi := Nat.mul_le_mul_right hi (by omega)
      omega
    obtain ⟨hm0, hm1⟩ := roundDouble_sandwich _ lo hi hmlo hmhi hhi53
    have hmean : JSNum.divD (rest.foldl JSNum.addD (JSNum.fin w))
        (JSNum.ofNat (JSNum.fin w :: rest).length) =
        JSNum.fin (roundDouble (S / ((1 + rest.length : Nat) : ℚ))) := by
      rw [hS, hlen]
      simp only [JSNum.divD, JSNum.div, JSNum.ofNat, JSNum.round, if_neg hn]
    have hgapq : (hi : ℚ) ≤ (lo : ℚ) + 1 := by exact_mod_cast hgap
    have hd : |w - roundDouble (S / ((1 + rest.length : Nat) : ℚ))| ≤ 1 := by
      rw [abs_le]
      constructor <;> linarith
    obtain ⟨B, hB, hB0, hB1⟩ := foldl_sqD_between (JSNum.fin w :: rest) w _ hall hd 0 0
      (le_refl 0) (by simp) (by rw [hlen]; omega)
    have h0 : JSNum.ofNat 0 = JSNum.fin 0 := by simp [JSNum.ofNat]
    simp only [hmean]
    rw [h0, hB, hlen]
    have hq0 : ((0 : Nat) : ℚ) ≤ B / ((1 + rest.length : Nat) : ℚ) := by
      simp only [Nat.cast_zero]
      exact div_nonneg hB0 (le_of_lt hnpos)
    have hq1 : B / ((1 + rest.length : Nat) : ℚ) ≤ ((1 : Nat) : ℚ) := by
      rw [Nat.cast_one, div_le_one hnpos]
      rw [hlen] at hB1
      simpa using hB1
    obtain ⟨hv0, hv1⟩ := roundDouble_sandwich _ 0 1 hq0 hq1 (by norm_num)
    refine ⟨roundDouble (B / ((1 + rest.length : Nat) : ℚ)), ?_, by simpa using hv0,
      by simpa using hv1⟩
    simp only [JSNum.divD, JSNum.div, JSNum.ofNat, JSNum.round, if_neg hn]

theorem grayValueD_uniform (orig : PixelBuffer) (r g b : Nat) (ou : orig.Uniform r g b)
    (hr : r ≤ 255) (hg : g ≤ 255) (hb : b ≤ 255) (x y : Nat) (hx : x < orig.width)
    (hy : y < orig.height) :
    grayValueD orig x y = roundDouble (((r + g + b : Nat) : ℚ) / 3) ∧
      (((r + g + b) / 3 : Nat) : ℚ) ≤ roundDouble (((r + g + b : Nat) : ℚ) / 3) ∧
      roundDouble (((r + g + b : Nat) : ℚ) / 3) ≤ (((r + g + b + 2) / 3 : Nat) : ℚ) := by
  obtain ⟨h0, h1, h2⟩ := ou x hx y hy
  constructor
  · unfold grayValueD
    rw [h0, h1, h2, ← Nat.cast_add, roundDouble_natCast (r + g) (by omega), ← Nat.cast_add,
      roundDouble_natCast (r + g + b) (by omega)]
  · apply roundDouble_sandwich _ _ _ _ _ (by omega)
    · rw [le_div_iff₀ (by norm_num)]
      have : (r + g + b) / 3 * 3 ≤ r + g + b := Nat.div_mul_le_self _ _
      exact_mod_cast this
    · rw [div_le_iff₀ (by norm_num)]
      have : r + g + b ≤ (r + g + b + 2) / 3 * 3 := by omega
      exact_mod_cast this

theorem allOnes_percentageD (mask : Mask) (w : Nat) (hgrid : mask.IsGrid w)
    (hne : mask.flatten ≠ []) (hcount : mask.flatten.count 1 = mask.flatten.length) :
    tamperedPercentageD mask = .ok (JSNum.fin 100) := by
  rw [grid_tamperedPercentageD mask w hgrid hne]
  have hlen : (mask.flatten.length : ℚ) ≠ 0 := by
    have : 0 < mask.flatten.length := List.length_pos.2 hne
    exact_mod_cast Nat.ne_of_gt this
  have e1 : roundDouble ((mask.flatten.count 1 : ℚ) / (mask.flatten.length : ℚ)) = 1 := by
    rw [hcount, div_self hlen]
    exact_mod_cast roundDouble_natCast 1 (by norm_num)
  have e2 : roundDouble ((1 : ℚ) * 100) = 100 := by
    rw [one_mul]
    exact_mod_cast roundDouble_natCast 100 (by norm_num)
  have hfloor : ⌊(100 : ℚ) * 100 + 1 / 2⌋ = 10000 := by
    rw [Int.floor_eq_iff]; constructor <;> norm_num
  rw [e1, e2]
  unfold roundTo2
  rw [hfloor]
  norm_num

/-- C14, as the code has it: for every uniform gray heat map of value above 50
with at least 100 pixels and every uniform original of the same dimensions
(its channel values bytes), the mask of `extractMask` has every cell equal to
1 and the tampered percentage is 100.00; with fewer than `2 ^ 32` pixels, as
many values as a JavaScript array can hold, the variance of `computeVariance`
is a number between 0 and 1 and `classify` with the default thresholds gives
`OBJECT REMOVAL`; the variance is exactly 0 when `R + G + B` of the original is
a multiple of 3.  The 10x10 heat map of value 100 with the 10x10 original of
colour `(128, 128, 128)` is such a pair, with exactly 100 cells equal to 1 and
variance 0. -/
theorem uniform_pipeline (heat orig : PixelBuffer) (v r g b : Nat)
    (hwf : heat.WellFormed) (hu : heat.Uniform v v v) (hv : 50 < v)
    (hn : 100 ≤ heat.width * heat.height)
    (owf : orig.WellFormed) (ow : orig.width = heat.width) (oh : orig.height = heat.height)
    (ou : orig.Uniform r g b) (hr : r ≤ 255) (hg : g ≤ 255) (hb : b ≤ 255) :
    ∃ mask, extractMaskOfImage heat = .ok mask ∧
      mask.flatten.length = heat.width * heat.height ∧
      mask.flatten.count 1 = heat.width * heat.height ∧
      tamperedPercentageD mask = .ok (JSNum.fin 100) ∧
      (heat.width * heat.height < 2 ^ 32 →
        ∃ q : ℚ, computeVarianceD orig mask = JSNum.fin q ∧ 0 ≤ q ∧ q ≤ 1 ∧
          classify mask (JSNum.fin q) none none = "OBJECT REMOVAL" ∧
          ((r + g + b) % 3 = 0 → q = 0)) := by
  obtain ⟨hlen, hcount, hgrid⟩ := allOnes_facts heat.width heat.height
  have hH : 0 < heat.height := by
    rcases Nat.eq_zero_or_pos heat.height with h0 | h0
    · rw [h0] at hn; simp at hn
    · exact h0
  have hW : 0 < heat.width := by
    rcases Nat.eq_zero_or_pos heat.width with h0 | h0
    · rw [h0] at hn; simp at hn
    · exact h0
  have hfirst : firstRowLength (List.replicate heat.height (List.replicate heat.width 1)) =
      heat.width := firstRowLength_eq _ heat.width hgrid.1 (by simpa using hH)
  have hmask : extractMaskOfImage heat =
      .ok (List.replicate heat.height (List.replicate heat.width 1)) := by
    unfold extractMaskOfImage
    rw [getImageData_ok heat hW hH]
    exact extractMask_uniform heat hwf v hu hv
  have hne : (List.replicate heat.height (List.replicate heat.width 1)).flatten ≠ [] := by
    apply List.ne_nil_of_length_pos
    omega
  refine ⟨_, hmask, hlen, hcount,
    allOnes_percentageD _ heat.width hgrid hne (by rw [hcount, hlen]), ?_⟩
  intro hsize
  -- every collected value is the same double
  have hvals : ∀ u ∈ collectValsD orig.width orig.data
      (List.replicate heat.height (List.replicate heat.width 1)),
      u = JSNum.fin (roundDouble (((r + g + b : Nat) : ℚ) / 3)) := by
    intro u hu'
    rw [collectValsD_eq, List.mem_flatMap] at hu'
    obtain ⟨y, hy, hu''⟩ := hu'
    obtain ⟨x, hx, rfl⟩ := List.mem_map.1 hu''
    have hy' : y < orig.height := by
      have := List.mem_range.1 hy
      rw [List.length_replicate] at this
      omega
    have hx' : x < orig.width := by
      have := List.mem_range.1 (List.mem_filter.1 hx).1
      rw [hfirst] at this
      omega
    rw [grayAtD_eq orig owf x y hx' hy',
      (grayValueD_uniform orig r g b ou hr hg hb x y hx' hy').1]
  have hlenv := collectValsD_length orig.width orig.data
    (List.replicate heat.height (List.replicate heat.width 1))
  rw [hfirst, List.length_replicate, Nat.mul_comm] at hlenv
  have hbounds : (((r + g + b) / 3 : Nat) : ℚ) ≤ roundDouble (((r + g + b : Nat) : ℚ) / 3) ∧
      roundDouble (((r + g + b : Nat) : ℚ) / 3) ≤ (((r + g + b + 2) / 3 : Nat) : ℚ) := by
    constructor
    · apply (roundDouble_sandwich _ ((r + g + b) / 3) ((r + g + b + 2) / 3) _ _ (by omega)).1
      · rw [le_div_iff₀ (by norm_num)]
        have : (r + g + b) / 3 * 3 ≤ r + g + b := Nat.div_mul_le_self _ _
        exact_mod_cast this
      · rw [div_le_iff₀ (by norm_num)]
        have : r + g + b ≤ (r + g + b + 2) / 3 * 3 := by omega
        exact_mod_cast this
    · apply (roundDouble_sandwich _ ((r + g + b) / 3) ((r + g + b + 2) / 3) _ _ (by omega)).2
      · rw [le_div_iff₀ (by norm_num)]
        have : (r + g + b) / 3 * 3 ≤ r + g + b := Nat.div_mul_le_self _ _
        exact_mod_cast this
      · rw [div_le_iff₀ (by norm_num)]
        have : r + g + b ≤ (r + g + b + 2) / 3 * 3 := by omega
        exact_mod_cast this
  have hsz : (collectValsD orig.width orig.data
      (List.replicate heat.height (List.replicate heat.width 1))).length *
      ((r + g + b + 2) / 3) < 2 ^ 53 := by
    have h2 : (r + g + b + 2) / 3 ≤ 255 := by omega
    have h3 := Nat.mul_le_mul hlenv h2
    have h5 : heat.width * heat.height * 255 < 2 ^ 53 := by omega
    omega
  obtain ⟨q, hq, hq0, hq1⟩ := varianceD_between _ _ ((r + g + b) / 3) ((r + g + b + 2) / 3)
    hvals hbounds.1 hbounds.2 (by omega) hsz (by omega)
  have hvar : computeVarianceD orig
      (List.replicate heat.height (List.replicate heat.width 1)) = JSNum.fin q := by
    unfold computeVarianceD
    exact hq
  refine ⟨q, hvar, hq0, hq1, ?_, ?_⟩
  · have h1 : ¬ (((List.replicate heat.height (List.replicate heat.width 1)).flatten.count 1 : ℚ)
        < 100) := by
      rw [hcount]
      have : (100 : ℚ) ≤ ((heat.width * heat.height : Nat) : ℚ) := by exact_mod_cast hn
      linarith
    have h2 : ¬ ((500 : ℚ) < q) := by linarith
    simp only [classify, Option.getD_none, area_eq_count, JSNum.ofNat, JSNum.lt, JSNum.gt,
      Nat.cast_ofNat]
    simp [h1, h2]
    have h4 : (100 : ℚ) ≤ ((heat.height * heat.width : Nat) : ℚ) := by
      rw [Nat.mul_comm]
      exact_mod_cast hn
    push_cast at h4
    exact h4
  · intro h3
    have hsum : r + g + b = (r + g + b) / 3 * 3 := by omega
    have hconst : computeVarianceD orig
        (List.replicate heat.height (List.replicate heat.width 1)) = JSNum.fin 0 := by
      unfold computeVarianceD
      refine varianceD_const _ ((r + g + b) / 3) ?_ ?_
      · intro u hu
        rw [hvals u hu]
        congr 1
        have e : ((r + g + b : Nat) : ℚ) / 3 = (((r + g + b) / 3 : Nat) : ℚ) := by
          rw [div_eq_iff (by norm_num)]
          exact_mod_cast hsum
        rw [e]
        exact roundDouble_natCast _ (by omega)
      · have h2 : (r + g + b) / 3 ≤ 255 := by omega
        have h3' := Nat.mul_le_mul hlenv h2
        have h5 : heat.width * heat.height * 255 < 2 ^ 53 := by omega
        omega
    rw [hvar] at hconst
    exact JSNum.fin.inj hconst

/-- Witness for C14: the 10x10 heat map of gray value 100 and the 10x10 original
of colour `(128, 128, 128)` give a mask with exactly 100 cells equal to 1, the
tampered percentage 100.00, the variance exactly 0 and the verdict
`OBJECT REMOVAL`. -/
theorem uniform_pipeline_witness :
    ∃ mask, extractMaskOfImage (uniformBuffer 10 10 100 100 100) = .ok mask ∧
      mask.flatten.length = 100 ∧
      mask.flatten.count 1 = 100 ∧
      tamperedPercentageD mask = .ok (JSNum.fin 100) ∧
      computeVarianceD (uniformBuffer 10 10 128 128 128) mask = JSNum.fin 0 ∧
      classify mask (JSNum.fin 0) none none = "OBJECT REMOVAL" := by
  obtain ⟨mask, h1, h2, h3, h4, h5⟩ :=
    uniform_pipeline (uniformBuffer 10 10 100 100 100) (uniformBuffer 10 10 128 128 128)
      100 128 128 128 (by decide!) (by decide!) (by decide) (by decide) (by decide!)
      rfl rfl (by decide!) (by decide) (by decide) (by decide)
  obtain ⟨q, hq, _, _, hc, hz⟩ := h5 (by decide)
  have hq0 : q = 0 := hz (by decide)
  subst hq0
  exact ⟨mask, h1, h2, h3, h4, hq, hc⟩

end ShiroRaksha
